import Mathlib

/-!
# Mini MIPS-like CPU simulator (`src/CPU.cpp`): embedding and properties

The C++ `struct CPU` is embedded as a record; its member functions become
functions on that record.  Machine integers are natural numbers reduced
explicitly modulo the width of their C++ type (`uint8_t`, `uint16_t`,
`uint32_t`, `uint64_t`), signed 32-bit values are integers in
`[-2^31, 2^31)`.  `int` is taken to be 32 bits wide, so that `addr + 3` with
`addr : uint32_t` is computed modulo `2^32` before it is compared with
`mem.size()`.  Signed additions that leave the `int32_t` range are modelled
with the two's-complement wrap the target hardware performs.

A member function can leave the normal control flow in two ways, both kept
apart from a plain `return`:
* `exit(1)` in one of the accessor guards;
* indexing `mem` at or beyond `mem.size()`, which has no defined result.
Trace printing (`verbose`) has no effect on the machine state and is omitted.
-/

namespace MiniCPU

/-- Memory capacity in bytes (`static const int MEMORY_SIZE = 4096`). -/
def MEMORY_SIZE : Nat := 4096

/-- Ways a member function can stop without returning. -/
inductive Fault where
  /-- An accessor guard fired and called `exit(1)`. -/
  | exit1
  /-- The vector `mem` was indexed at or beyond `mem.size()`. -/
  | outOfBounds
  deriving DecidableEq, Repr

/-- Machine state (`struct CPU`): `mem` is `vector<uint8_t>`, `regs` is
`uint32_t regs[32]` (only indices `0..31` are ever used, every index being a
5-bit field), `PC` is `uint32_t`, `cycle` is `uint64_t`. -/
structure CPU where
  mem : List Nat
  regs : Nat → Nat
  PC : Nat
  cycle : Nat

/-- Type invariant of `struct CPU` as built by its constructor: the memory has
`MEMORY_SIZE` bytes, and every stored value fits its C++ type. -/
structure CPU.WF (c : CPU) : Prop where
  mem_size : c.mem.length = MEMORY_SIZE
  mem_byte : ∀ b ∈ c.mem, b < 256
  regs_u32 : ∀ r, c.regs r < 2 ^ 32
  PC_u32 : c.PC < 2 ^ 32
  cycle_u64 : c.cycle < 2 ^ 64

/-- Constructor `CPU()`: zeroed memory, zeroed registers, `PC = 0`, `cycle = 0`. -/
def CPU.new : CPU :=
  { mem := List.replicate MEMORY_SIZE 0, regs := fun _ => 0, PC := 0, cycle := 0 }

/-- Truncation to `uint32_t`. -/
def u32 (n : Nat) : Nat := n % 2 ^ 32

/-- Conversion `(int32_t)w` of a 32-bit pattern. -/
def toInt32 (w : Nat) : Int :=
  if w % 2 ^ 32 < 2 ^ 31 then ((w % 2 ^ 32 : Nat) : Int) else ((w % 2 ^ 32 : Nat) : Int) - 2 ^ 32

/-- Conversion `(uint32_t)i` of a signed value. -/
def toUInt32 (i : Int) : Nat := (i % 2 ^ 32).toNat

/-- Result of an `int32_t` operation whose exact value is `i`: the
two's-complement wrap into `[-2^31, 2^31)`. -/
def wrapInt32 (i : Int) : Int := toInt32 (toUInt32 i)

/-- Read `mem[i]`. -/
def rdByte (m : List Nat) (i : Nat) : Except Fault Nat :=
  match m[i]? with
  | some b => .ok b
  | none => .error .outOfBounds

/-- Assignment `mem[i] = v` (the value is converted to `uint8_t`). -/
def wrByte (m : List Nat) (i v : Nat) : Except Fault (List Nat) :=
  if i < m.length then .ok (m.set i (v % 256)) else .error .outOfBounds

/-- `CPU::store_word_be`: store a word as four big-endian bytes. -/
def store_word_be (c : CPU) (addr word : Nat) : Except Fault CPU :=
  if u32 (addr + 3) ≥ c.mem.length then .error .exit1
  else do
    let m0 ← wrByte c.mem (u32 (addr + 0)) ((word >>> 24) &&& 0xFF)
    let m1 ← wrByte m0 (u32 (addr + 1)) ((word >>> 16) &&& 0xFF)
    let m2 ← wrByte m1 (u32 (addr + 2)) ((word >>> 8) &&& 0xFF)
    let m3 ← wrByte m2 (u32 (addr + 3)) ((word >>> 0) &&& 0xFF)
    pure { c with mem := m3 }

/-- `CPU::fetch_word_be`: load a big-endian instruction word. -/
def fetch_word_be (c : CPU) (addr : Nat) : Except Fault Nat :=
  if u32 (addr + 3) ≥ c.mem.length then .error .exit1
  else do
    let w := 0
    let b0 ← rdByte c.mem (u32 (addr + 0))
    let w := w ||| u32 (b0 <<< 24)
    let b1 ← rdByte c.mem (u32 (addr + 1))
    let w := w ||| u32 (b1 <<< 16)
    let b2 ← rdByte c.mem (u32 (addr + 2))
    let w := w ||| u32 (b2 <<< 8)
    let b3 ← rdByte c.mem (u32 (addr + 3))
    let w := w ||| u32 (b3 <<< 0)
    pure w

/-- `CPU::read_word_le`: load a little-endian data word, returned as `int32_t`. -/
def read_word_le (c : CPU) (addr : Nat) : Except Fault Int :=
  if u32 (addr + 3) ≥ c.mem.length then .error .exit1
  else do
    let w := 0
    let b0 ← rdByte c.mem (u32 (addr + 0))
    let w := w ||| u32 (b0 <<< 0)
    let b1 ← rdByte c.mem (u32 (addr + 1))
    let w := w ||| u32 (b1 <<< 8)
    let b2 ← rdByte c.mem (u32 (addr + 2))
    let w := w ||| u32 (b2 <<< 16)
    let b3 ← rdByte c.mem (u32 (addr + 3))
    let w := w ||| u32 (b3 <<< 24)
    pure (toInt32 w)

/-- `CPU::write_word_le`: store a data word as four little-endian bytes. -/
def write_word_le (c : CPU) (addr val : Nat) : Except Fault CPU :=
  if u32 (addr + 3) ≥ c.mem.length then .error .exit1
  else do
    let m0 ← wrByte c.mem (u32 (addr + 0)) ((val >>> 0) &&& 0xFF)
    let m1 ← wrByte m0 (u32 (addr + 1)) ((val >>> 8) &&& 0xFF)
    let m2 ← wrByte m1 (u32 (addr + 2)) ((val >>> 16) &&& 0xFF)
    let m3 ← wrByte m2 (u32 (addr + 3)) ((val >>> 24) &&& 0xFF)
    pure { c with mem := m3 }

/-- `CPU::signext16`: sign-extend a 16-bit immediate to `int32_t`. -/
def signext16 (v : Nat) : Int :=
  if v &&& 0x8000 ≠ 0 then toInt32 (0xFFFF0000 ||| v) else (v : Int)

/-- Field `opcode = (IR >> 26) & 0x3F`. -/
def opcode (IR : Nat) : Nat := (IR >>> 26) &&& 0x3F
/-- Field `rs = (IR >> 21) & 0x1F`. -/
def rs (IR : Nat) : Nat := (IR >>> 21) &&& 0x1F
/-- Field `rt = (IR >> 16) & 0x1F`. -/
def rt (IR : Nat) : Nat := (IR >>> 16) &&& 0x1F
/-- Field `rd = (IR >> 11) & 0x1F`. -/
def rd (IR : Nat) : Nat := (IR >>> 11) &&& 0x1F
/-- Field `funct = IR & 0x3F`. -/
def funct (IR : Nat) : Nat := IR &&& 0x3F
/-- Field `imm16 = IR & 0xFFFF`. -/
def imm16 (IR : Nat) : Nat := IR &&& 0xFFFF

/-- The local variables of `step` that carry the scheduled effects from the
decode/execute stage to the memory and write-back stages, together with the
program counter (which a taken `BEQ` overwrites). -/
structure Sched where
  writeReg : Bool
  writeRegIdx : Nat
  writeRegVal : Nat
  memWrite : Bool
  memAddr : Nat
  memWriteVal : Nat
  memRead : Bool
  memReadReg : Nat
  PC : Nat

/-- Initial values of the locals of `step` (nothing scheduled). -/
def Sched.idle (pc : Nat) : Sched :=
  { writeReg := false, writeRegIdx := 0, writeRegVal := 0,
    memWrite := false, memAddr := 0, memWriteVal := 0,
    memRead := false, memReadReg := 0, PC := pc }

/-- Decode/execute stage of `CPU::step` (the `if (opcode == 0) ... else ...`
chain).  `PC` is the already incremented program counter.  The result `none`
is the early `return false` of the `LW`/`SW` address check. -/
def execute (regs : Nat → Nat) (memSize PC IR : Nat) : Option Sched :=
  let simm := signext16 (imm16 IR)
  let d := Sched.idle PC
  if opcode IR = 0 then
    if funct IR = 0x20 then
      let a := toInt32 (regs (rs IR))
      let b := toInt32 (regs (rt IR))
      let res := wrapInt32 (a + b)
      some { d with writeReg := true, writeRegIdx := rd IR, writeRegVal := toUInt32 res }
    else if funct IR = 0x22 then
      let a := toInt32 (regs (rs IR))
      let b := toInt32 (regs (rt IR))
      let res := wrapInt32 (a - b)
      some { d with writeReg := true, writeRegIdx := rd IR, writeRegVal := toUInt32 res }
    else some d
  else if opcode IR = 0x08 then
    let a := toInt32 (regs (rs IR))
    let res := wrapInt32 (a + simm)
    some { d with writeReg := true, writeRegIdx := rt IR, writeRegVal := toUInt32 res }
  else if opcode IR = 0x23 then
    let addr := toUInt32 (wrapInt32 (toInt32 (regs (rs IR)) + simm))
    if u32 (addr + 3) ≥ memSize then none
    else some { d with memRead := true, memReadReg := rt IR, memAddr := addr }
  else if opcode IR = 0x2B then
    let addr := toUInt32 (wrapInt32 (toInt32 (regs (rs IR)) + simm))
    if u32 (addr + 3) ≥ memSize then none
    else some { d with memWrite := true, memAddr := addr, memWriteVal := regs (rt IR) }
  else if opcode IR = 0x04 then
    if regs (rs IR) = regs (rt IR) then
      some { d with PC := u32 (PC + u32 (toUInt32 simm <<< 2)) }
    else some d
  else some d

/-- Write-back stage of `CPU::step` followed by `regs[0] = 0`. -/
def writeBack (regs : Nat → Nat) (writeReg : Bool) (idx val : Nat) : Nat → Nat :=
  let regs1 : Nat → Nat :=
    if writeReg then
      if idx ≠ 0 then fun r => if r = idx then val else regs r else regs
    else regs
  fun r => if r = 0 then 0 else regs1 r

/-- `CPU::step`: one fetch/decode/execute/memory/write-back cycle.  The
boolean is the return value (`false` = halt). -/
def step (s : CPU) : Except Fault (Bool × CPU) :=
  if u32 (s.PC + 3) ≥ s.mem.length then .ok (false, s)
  else do
    let cycle := (s.cycle + 1) % 2 ^ 64
    let IR ← fetch_word_be s s.PC
    let PC := u32 (s.PC + 4)
    match execute s.regs s.mem.length PC IR with
    | none => pure (false, { s with cycle := cycle, PC := PC })
    | some l =>
      let s1 : CPU := { s with cycle := cycle, PC := l.PC }
      let s2 ← if l.memWrite then write_word_le s1 l.memAddr l.memWriteVal else pure s1
      if l.memRead then do
        let val ← read_word_le s2 l.memAddr
        pure (true, { s2 with regs := writeBack s2.regs true l.memReadReg (toUInt32 val) })
      else
        pure (true, { s2 with regs := writeBack s2.regs l.writeReg l.writeRegIdx l.writeRegVal })

/-- The part of `CPU::step` that follows the fetch guard, for the fetched word `IR`:
`++cycle`, `PC += 4`, decode/execute, memory stage and write-back, exactly as in `step`. -/
def step_after_fetch (s : CPU) (IR : Nat) : Except Fault (Bool × CPU) := do
  let cycle := (s.cycle + 1) % 2 ^ 64
  let PC := u32 (s.PC + 4)
  match execute s.regs s.mem.length PC IR with
  | none => pure (false, { s with cycle := cycle, PC := PC })
  | some l =>
    let s1 : CPU := { s with cycle := cycle, PC := l.PC }
    let s2 ← if l.memWrite then write_word_le s1 l.memAddr l.memWriteVal else pure s1
    if l.memRead then do
      let val ← read_word_le s2 l.memAddr
      pure (true, { s2 with regs := writeBack s2.regs true l.memReadReg (toUInt32 val) })
    else
      pure (true, { s2 with regs := writeBack s2.regs l.writeReg l.writeRegIdx l.writeRegVal })

/-- Loader loop of `main`: `for (w : toLoad) { store_word_be(addr, w); addr += 4; }`. -/
def load_words : CPU → Nat → List Nat → Except Fault CPU
  | c, _, [] => .ok c
  | c, addr, w :: ws => do
    let c1 ← store_word_be c addr w
    load_words c1 (u32 (addr + 4)) ws

/-- Calling `step` again and again until it first returns `false`; `fuel`
bounds the number of calls, `none` means the bound was reached first. -/
def run_until_halt : Nat → CPU → Except Fault (Option CPU)
  | 0, _ => .ok none
  | fuel + 1, s =>
    match step s with
    | .error e => .error e
    | .ok (false, s1) => .ok (some s1)
    | .ok (true, s1) => run_until_halt fuel s1

/-- Sample program `prog2` of `main` (sum of 5, 4, 3, 2, 1). -/
def prog2 : List Nat :=
  [0x20080005, 0x20090000, 0x01284820, 0x2108FFFF, 0x11000001, 0x1000FFFC, 0xAC090000]

/-- Memory after the four byte stores of `store_word_be`. -/
def memStoreBE (m : List Nat) (a w : Nat) : List Nat :=
  (((m.set a (w >>> 24 % 256)).set (a + 1) (w >>> 16 % 256)).set (a + 2) (w >>> 8 % 256)).set
    (a + 3) (w % 256)

/-- Memory after the four byte stores of `write_word_le`. -/
def memStoreLE (m : List Nat) (a w : Nat) : List Nat :=
  (((m.set a (w % 256)).set (a + 1) (w >>> 8 % 256)).set (a + 2) (w >>> 16 % 256)).set
    (a + 3) (w >>> 24 % 256)

/-- The state after the fetch stage: cycle counted, `PC` set. -/
def CPU.advance (s : CPU) (pc : Nat) : CPU :=
  { s with cycle := (s.cycle + 1) % 2 ^ 64, PC := pc }

/-- The local `addr` of the `LW` and `SW` branches of `step`:
`(uint32_t)((int32_t)regs[rs] + simm)`. -/
def effAddr (regs : Nat → Nat) (IR : Nat) : Nat :=
  toUInt32 (wrapInt32 (toInt32 (regs (rs IR)) + signext16 (imm16 IR)))

/-- A sample machine: the word `w` stored at address 0 of a fresh machine by
`store_word_be`, registers 8 and 9 holding `r8` and `r9`, all other registers 0. -/
def CPU.sample (w r8 r9 : Nat) : CPU :=
  { mem := memStoreBE CPU.new.mem 0 w
    regs := fun r => if r = 8 then r8 else if r = 9 then r9 else 0
    PC := 0
    cycle := 0 }
/-- The sum `n + (n-1) + ... + 1`. -/
def sumDown : Nat → Nat
  | 0 => 0
  | n + 1 => (n + 1) + sumDown n

/-- Memory invariant while `prog2` runs: the seven instruction words can be fetched from
addresses 0, 4, ..., 24 and every byte from address 28 on is zero. -/
def Prog2Loaded (s : CPU) : Prop :=
  s.mem.length = MEMORY_SIZE ∧ (∀ b ∈ s.mem, b < 256) ∧
  (∀ i, i < 7 → fetch_word_be s (4 * i) = .ok (prog2.getD i 0)) ∧
  (∀ j, 28 ≤ j → j < MEMORY_SIZE → s.mem[j]? = some 0)
/-! ## Word arithmetic -/

theorem u32_of_lt {n : Nat} (h : n < 2 ^ 32) : u32 n = n := Nat.mod_eq_of_lt h

theorem and_0xFF (x : Nat) : x &&& 0xFF = x % 256 := Nat.and_pow_two_sub_one_eq_mod x 8
theorem and_0xFFFF (x : Nat) : x &&& 0xFFFF = x % 65536 := Nat.and_pow_two_sub_one_eq_mod x 16
theorem and_0x3F (x : Nat) : x &&& 0x3F = x % 64 := Nat.and_pow_two_sub_one_eq_mod x 6
theorem and_0x1F (x : Nat) : x &&& 0x1F = x % 32 := Nat.and_pow_two_sub_one_eq_mod x 5

/-- Bitwise or of a multiple of `2^k` with a value below `2^k` is their sum. -/
theorem or_eq_add_of_lt (k a b : Nat) (hb : b < 2 ^ k) : 2 ^ k * a ||| b = 2 ^ k * a + b :=
  (Nat.mul_add_lt_is_or hb a).symm

/-- The big-endian assembly of `fetch_word_be` computes the positional value. -/
theorem be_assemble (b0 b1 b2 b3 : Nat) (h0 : b0 < 256) (h1 : b1 < 256) (h2 : b2 < 256)
    (h3 : b3 < 256) :
    0 ||| u32 (b0 <<< 24) ||| u32 (b1 <<< 16) ||| u32 (b2 <<< 8) ||| u32 (b3 <<< 0)
      = b0 * 2 ^ 24 + b1 * 2 ^ 16 + b2 * 2 ^ 8 + b3 := by
  simp only [Nat.shiftLeft_eq, Nat.zero_or, u32]
  have e0 : b0 * 2 ^ 24 % 2 ^ 32 = 2 ^ 24 * b0 := by omega
  have e1 : b1 * 2 ^ 16 % 2 ^ 32 = b1 * 2 ^ 16 := by omega
  have e2 : b2 * 2 ^ 8 % 2 ^ 32 = b2 * 2 ^ 8 := by omega
  have e3 : b3 * 2 ^ 0 % 2 ^ 32 = b3 := by omega
  rw [e0, e1, e2, e3, or_eq_add_of_lt 24 b0 _ (by omega)]
  have f1 : 2 ^ 24 * b0 + b1 * 2 ^ 16 = 2 ^ 16 * (2 ^ 8 * b0 + b1) := by omega
  rw [f1, or_eq_add_of_lt 16 _ _ (by omega)]
  have f2 : 2 ^ 16 * (2 ^ 8 * b0 + b1) + b2 * 2 ^ 8 = 2 ^ 8 * (2 ^ 16 * b0 + 2 ^ 8 * b1 + b2) := by
    omega
  rw [f2, or_eq_add_of_lt 8 _ _ (by omega)]
  omega

/-- The little-endian assembly of `read_word_le` computes the positional value. -/
theorem le_assemble (b0 b1 b2 b3 : Nat) (h0 : b0 < 256) (h1 : b1 < 256) (h2 : b2 < 256)
    (h3 : b3 < 256) :
    0 ||| u32 (b0 <<< 0) ||| u32 (b1 <<< 8) ||| u32 (b2 <<< 16) ||| u32 (b3 <<< 24)
      = b0 + b1 * 2 ^ 8 + b2 * 2 ^ 16 + b3 * 2 ^ 24 := by
  simp only [Nat.shiftLeft_eq, Nat.zero_or, u32]
  have e0 : b0 * 2 ^ 0 % 2 ^ 32 = b0 := by omega
  have e1 : b1 * 2 ^ 8 % 2 ^ 32 = 2 ^ 8 * b1 := by omega
  have e2 : b2 * 2 ^ 16 % 2 ^ 32 = 2 ^ 16 * b2 := by omega
  have e3 : b3 * 2 ^ 24 % 2 ^ 32 = 2 ^ 24 * b3 := by omega
  rw [e0, e1, e2, e3, Nat.or_comm b0, or_eq_add_of_lt 8 b1 _ (by omega),
    Nat.or_comm _ (2 ^ 16 * b2), or_eq_add_of_lt 16 b2 _ (by omega),
    Nat.or_comm _ (2 ^ 24 * b3), or_eq_add_of_lt 24 b3 _ (by omega)]
  omega

theorem toUInt32_lt (i : Int) : toUInt32 i < 2 ^ 32 := by
  unfold toUInt32; omega

theorem toUInt32_toInt32 (n : Nat) : toUInt32 (toInt32 n) = n % 2 ^ 32 := by
  unfold toUInt32 toInt32; split <;> omega

theorem toUInt32_wrapInt32 (i : Int) : toUInt32 (wrapInt32 i) = toUInt32 i := by
  unfold wrapInt32
  rw [toUInt32_toInt32]
  exact Nat.mod_eq_of_lt (toUInt32_lt i)

theorem toUInt32_add (x y : Nat) : toUInt32 (toInt32 x + toInt32 y) = (x + y) % 2 ^ 32 := by
  unfold toUInt32 toInt32; split <;> split <;> omega

theorem toUInt32_sub (x y : Nat) :
    ((toUInt32 (toInt32 x - toInt32 y) : Nat) : Int) = ((x : Int) - (y : Int)) % 2 ^ 32 := by
  unfold toUInt32 toInt32; split <;> split <;> omega

theorem toUInt32_add_int (x : Nat) (i : Int) :
    ((toUInt32 (toInt32 x + i) : Nat) : Int) = ((x : Int) + i) % 2 ^ 32 := by
  unfold toUInt32 toInt32; split <;> omega

/-! ## Memory accessors -/

theorem rdByte_of_lt (m : List Nat) (i : Nat) (h : i < m.length) :
    rdByte m i = .ok (m.getD i 0) := by
  simp [rdByte, List.getElem?_eq_getElem h]

theorem rdByte_of_ge (m : List Nat) (i : Nat) (h : m.length ≤ i) :
    rdByte m i = .error .outOfBounds := by
  simp [rdByte, List.getElem?_eq_none h]

theorem wrByte_of_lt (m : List Nat) (i v : Nat) (h : i < m.length) :
    wrByte m i v = .ok (m.set i (v % 256)) := by
  simp [wrByte, h]

theorem getD_lt_256 (m : List Nat) (hb : ∀ b ∈ m, b < 256) (i : Nat) : m.getD i 0 < 256 := by
  rw [List.getD_eq_getElem?_getD]
  cases h : m[i]? with
  | none => simp
  | some b => exact hb b (List.getElem?_mem h)

theorem store_word_be_eq (c : CPU) (a w : Nat) (hlen : c.mem.length = MEMORY_SIZE)
    (ha : a + 3 < MEMORY_SIZE) :
    store_word_be c a w = .ok { c with mem := memStoreBE c.mem a w } := by
  have h4 : MEMORY_SIZE = 4096 := rfl
  have e0 : u32 (a + 0) = a := u32_of_lt (by omega)
  have e1 : u32 (a + 1) = a + 1 := u32_of_lt (by omega)
  have e2 : u32 (a + 2) = a + 2 := u32_of_lt (by omega)
  have e3 : u32 (a + 3) = a + 3 := u32_of_lt (by omega)
  unfold store_word_be
  rw [e0, e1, e2, e3, if_neg (by omega)]
  simp only [bind, Except.bind, pure, Except.pure]
  rw [wrByte_of_lt _ _ _ (by omega)]
  simp only []
  rw [wrByte_of_lt _ _ _ (by simp; omega)]
  simp only []
  rw [wrByte_of_lt _ _ _ (by simp; omega)]
  simp only []
  rw [wrByte_of_lt _ _ _ (by simp; omega)]
  simp [memStoreBE, and_0xFF]

theorem write_word_le_eq (c : CPU) (a w : Nat) (hlen : c.mem.length = MEMORY_SIZE)
    (ha : a + 3 < MEMORY_SIZE) :
    write_word_le c a w = .ok { c with mem := memStoreLE c.mem a w } := by
  have h4 : MEMORY_SIZE = 4096 := rfl
  have e0 : u32 (a + 0) = a := u32_of_lt (by omega)
  have e1 : u32 (a + 1) = a + 1 := u32_of_lt (by omega)
  have e2 : u32 (a + 2) = a + 2 := u32_of_lt (by omega)
  have e3 : u32 (a + 3) = a + 3 := u32_of_lt (by omega)
  unfold write_word_le
  rw [e0, e1, e2, e3, if_neg (by omega)]
  simp only [bind, Except.bind, pure, Except.pure]
  rw [wrByte_of_lt _ _ _ (by omega)]
  simp only []
  rw [wrByte_of_lt _ _ _ (by simp; omega)]
  simp only []
  rw [wrByte_of_lt _ _ _ (by simp; omega)]
  simp only []
  rw [wrByte_of_lt _ _ _ (by simp; omega)]
  simp [memStoreLE, and_0xFF]

theorem fetch_word_be_eq (c : CPU) (a : Nat) (hlen : c.mem.length = MEMORY_SIZE)
    (hb : ∀ b ∈ c.mem, b < 256) (ha : a + 3 < MEMORY_SIZE) :
    fetch_word_be c a = .ok (c.mem.getD a 0 * 2 ^ 24 + c.mem.getD (a + 1) 0 * 2 ^ 16
      + c.mem.getD (a + 2) 0 * 2 ^ 8 + c.mem.getD (a + 3) 0) := by
  have h4 : MEMORY_SIZE = 4096 := rfl
  have e0 : u32 (a + 0) = a := u32_of_lt (by omega)
  have e1 : u32 (a + 1) = a + 1 := u32_of_lt (by omega)
  have e2 : u32 (a + 2) = a + 2 := u32_of_lt (by omega)
  have e3 : u32 (a + 3) = a + 3 := u32_of_lt (by omega)
  unfold fetch_word_be
  rw [e0, e1, e2, e3, if_neg (by omega)]
  simp only [bind, Except.bind, pure, Except.pure]
  rw [rdByte_of_lt _ _ (by omega), rdByte_of_lt _ _ (by omega), rdByte_of_lt _ _ (by omega),
    rdByte_of_lt _ _ (by omega)]
  simp only []
  rw [be_assemble _ _ _ _ (getD_lt_256 _ hb _) (getD_lt_256 _ hb _) (getD_lt_256 _ hb _)
    (getD_lt_256 _ hb _)]

theorem read_word_le_eq (c : CPU) (a : Nat) (hlen : c.mem.length = MEMORY_SIZE)
    (hb : ∀ b ∈ c.mem, b < 256) (ha : a + 3 < MEMORY_SIZE) :
    read_word_le c a = .ok (toInt32 (c.mem.getD a 0 + c.mem.getD (a + 1) 0 * 2 ^ 8
      + c.mem.getD (a + 2) 0 * 2 ^ 16 + c.mem.getD (a + 3) 0 * 2 ^ 24)) := by
  have h4 : MEMORY_SIZE = 4096 := rfl
  have e0 : u32 (a + 0) = a := u32_of_lt (by omega)
  have e1 : u32 (a + 1) = a + 1 := u32_of_lt (by omega)
  have e2 : u32 (a + 2) = a + 2 := u32_of_lt (by omega)
  have e3 : u32 (a + 3) = a + 3 := u32_of_lt (by omega)
  unfold read_word_le
  rw [e0, e1, e2, e3, if_neg (by omega)]
  simp only [bind, Except.bind, pure, Except.pure]
  rw [rdByte_of_lt _ _ (by omega), rdByte_of_lt _ _ (by omega), rdByte_of_lt _ _ (by omega),
    rdByte_of_lt _ _ (by omega)]
  simp only []
  rw [le_assemble _ _ _ _ (getD_lt_256 _ hb _) (getD_lt_256 _ hb _) (getD_lt_256 _ hb _)
    (getD_lt_256 _ hb _)]

/-! ## One step, by outcome of the execute stage -/

theorem fetch_ok_bound (s : CPU) (hwf : s.WF) (IR : Nat)
    (hf : fetch_word_be s s.PC = .ok IR) : s.PC + 3 < MEMORY_SIZE := by
  have h4 : MEMORY_SIZE = 4096 := rfl
  have hlen := hwf.mem_size
  have hpc := hwf.PC_u32
  by_contra hcon
  unfold fetch_word_be at hf
  by_cases hg : u32 (s.PC + 3) ≥ s.mem.length
  · rw [if_pos hg] at hf; cases hf
  · rw [if_neg hg] at hf
    have hge : s.mem.length ≤ u32 (s.PC + 0) := by
      unfold u32 at hg ⊢; omega
    rw [rdByte_of_ge _ _ hge] at hf
    cases hf

theorem step_guard_halt (s : CPU) (h : u32 (s.PC + 3) ≥ s.mem.length) :
    step s = .ok (false, s) := by
  unfold step; rw [if_pos h]

theorem step_of_execute_none (s : CPU) (IR : Nat) (hlen : s.mem.length = MEMORY_SIZE)
    (hpc : s.PC + 3 < MEMORY_SIZE) (hf : fetch_word_be s s.PC = .ok IR)
    (hx : execute s.regs MEMORY_SIZE (s.PC + 4) IR = none) :
    step s = .ok (false, s.advance (s.PC + 4)) := by
  have h4 : MEMORY_SIZE = 4096 := rfl
  have e3 : u32 (s.PC + 3) = s.PC + 3 := u32_of_lt (by omega)
  have e4 : u32 (s.PC + 4) = s.PC + 4 := u32_of_lt (by omega)
  unfold step
  rw [e3, e4, if_neg (by omega), hf, hlen]
  simp only [bind, Except.bind, pure, Except.pure, hx, CPU.advance]

theorem step_of_execute_reg (s : CPU) (IR : Nat) (l : Sched) (hlen : s.mem.length = MEMORY_SIZE)
    (hpc : s.PC + 3 < MEMORY_SIZE) (hf : fetch_word_be s s.PC = .ok IR)
    (hx : execute s.regs MEMORY_SIZE (s.PC + 4) IR = some l)
    (hw : l.memWrite = false) (hr : l.memRead = false) :
    step s = .ok (true,
      { mem := s.mem, regs := writeBack s.regs l.writeReg l.writeRegIdx l.writeRegVal,
        PC := l.PC, cycle := (s.cycle + 1) % 2 ^ 64 }) := by
  have h4 : MEMORY_SIZE = 4096 := rfl
  have e3 : u32 (s.PC + 3) = s.PC + 3 := u32_of_lt (by omega)
  have e4 : u32 (s.PC + 4) = s.PC + 4 := u32_of_lt (by omega)
  unfold step
  rw [e3, e4, if_neg (by omega), hf, hlen]
  simp [bind, Except.bind, pure, Except.pure, hx, CPU.advance, hw, hr]

theorem step_of_execute_store (s : CPU) (IR : Nat) (l : Sched)
    (hlen : s.mem.length = MEMORY_SIZE)
    (hpc : s.PC + 3 < MEMORY_SIZE) (hf : fetch_word_be s s.PC = .ok IR)
    (hx : execute s.regs MEMORY_SIZE (s.PC + 4) IR = some l)
    (hw : l.memWrite = true) (hr : l.memRead = false) (ha : l.memAddr + 3 < MEMORY_SIZE) :
    step s = .ok (true,
      { mem := memStoreLE s.mem l.memAddr l.memWriteVal,
        regs := writeBack s.regs l.writeReg l.writeRegIdx l.writeRegVal,
        PC := l.PC, cycle := (s.cycle + 1) % 2 ^ 64 }) := by
  have h4 : MEMORY_SIZE = 4096 := rfl
  have e3 : u32 (s.PC + 3) = s.PC + 3 := u32_of_lt (by omega)
  have e4 : u32 (s.PC + 4) = s.PC + 4 := u32_of_lt (by omega)
  unfold step
  rw [e3, e4, if_neg (by omega), hf, hlen]
  simp only [bind, Except.bind, pure, Except.pure, hx, hw, hr, if_true]
  rw [write_word_le_eq { s with cycle := (s.cycle + 1) % 2 ^ 64, PC := l.PC } _ _ hlen ha]
  simp [CPU.advance]

theorem step_of_execute_load (s : CPU) (IR : Nat) (l : Sched)
    (hlen : s.mem.length = MEMORY_SIZE) (hb : ∀ b ∈ s.mem, b < 256)
    (hpc : s.PC + 3 < MEMORY_SIZE) (hf : fetch_word_be s s.PC = .ok IR)
    (hx : execute s.regs MEMORY_SIZE (s.PC + 4) IR = some l)
    (hw : l.memWrite = false) (hr : l.memRead = true) (ha : l.memAddr + 3 < MEMORY_SIZE) :
    step s = .ok (true,
      { mem := s.mem,
        regs := writeBack s.regs true l.memReadReg
          ((s.mem.getD l.memAddr 0 + s.mem.getD (l.memAddr + 1) 0 * 2 ^ 8
            + s.mem.getD (l.memAddr + 2) 0 * 2 ^ 16 + s.mem.getD (l.memAddr + 3) 0 * 2 ^ 24)
            % 2 ^ 32),
        PC := l.PC, cycle := (s.cycle + 1) % 2 ^ 64 }) := by
  have h4 : MEMORY_SIZE = 4096 := rfl
  have e3 : u32 (s.PC + 3) = s.PC + 3 := u32_of_lt (by omega)
  have e4 : u32 (s.PC + 4) = s.PC + 4 := u32_of_lt (by omega)
  unfold step
  rw [e3, e4, if_neg (by omega), hf, hlen]
  simp only [bind, Except.bind, pure, Except.pure, hx, hw, hr, if_true]
  have hrd := read_word_le_eq { s with cycle := (s.cycle + 1) % 2 ^ 64, PC := l.PC }
    l.memAddr hlen hb ha
  rw [hrd]
  simp [toUInt32_toInt32, CPU.advance]

/-! ## Stores, loads and their round trips -/

theorem memStoreBE_length (m : List Nat) (a w : Nat) : (memStoreBE m a w).length = m.length := by
  simp [memStoreBE]

theorem memStoreLE_length (m : List Nat) (a w : Nat) : (memStoreLE m a w).length = m.length := by
  simp [memStoreLE]

theorem memStoreBE_byte (m : List Nat) (a w : Nat) (hb : ∀ b ∈ m, b < 256) :
    ∀ b ∈ memStoreBE m a w, b < 256 := by
  intro b hmem
  unfold memStoreBE at hmem
  rcases List.mem_or_eq_of_mem_set hmem with h | h
  · rcases List.mem_or_eq_of_mem_set h with h | h
    · rcases List.mem_or_eq_of_mem_set h with h | h
      · rcases List.mem_or_eq_of_mem_set h with h | h
        · exact hb b h
        · omega
      · omega
    · omega
  · omega

theorem memStoreLE_byte (m : List Nat) (a w : Nat) (hb : ∀ b ∈ m, b < 256) :
    ∀ b ∈ memStoreLE m a w, b < 256 := by
  intro b hmem
  unfold memStoreLE at hmem
  rcases List.mem_or_eq_of_mem_set hmem with h | h
  · rcases List.mem_or_eq_of_mem_set h with h | h
    · rcases List.mem_or_eq_of_mem_set h with h | h
      · rcases List.mem_or_eq_of_mem_set h with h | h
        · exact hb b h
        · omega
      · omega
    · omega
  · omega

/-- The four bytes written by `store_word_be`, most significant first. -/
theorem memStoreBE_bytes (m : List Nat) (a w : Nat) (h : a + 3 < m.length) :
    (memStoreBE m a w)[a]? = some (w >>> 24 % 256)
    ∧ (memStoreBE m a w)[a + 1]? = some (w >>> 16 % 256)
    ∧ (memStoreBE m a w)[a + 2]? = some (w >>> 8 % 256)
    ∧ (memStoreBE m a w)[a + 3]? = some (w % 256) := by
  have h0 : a < m.length := by omega
  have h1 : a + 1 < m.length := by omega
  have h2 : a + 2 < m.length := by omega
  simp [memStoreBE, List.getElem?_set, h, h0, h1, h2]

/-- The four bytes written by `write_word_le`, least significant first. -/
theorem memStoreLE_bytes (m : List Nat) (a w : Nat) (h : a + 3 < m.length) :
    (memStoreLE m a w)[a]? = some (w % 256)
    ∧ (memStoreLE m a w)[a + 1]? = some (w >>> 8 % 256)
    ∧ (memStoreLE m a w)[a + 2]? = some (w >>> 16 % 256)
    ∧ (memStoreLE m a w)[a + 3]? = some (w >>> 24 % 256) := by
  have h0 : a < m.length := by omega
  have h1 : a + 1 < m.length := by omega
  have h2 : a + 2 < m.length := by omega
  simp [memStoreLE, List.getElem?_set, h, h0, h1, h2]

/-- Bytes outside the written window keep their value (big-endian store). -/
theorem memStoreBE_frame (m : List Nat) (a w i : Nat) (h : i < a ∨ a + 3 < i) :
    (memStoreBE m a w)[i]? = m[i]? := by
  unfold memStoreBE
  rw [List.getElem?_set_ne (by omega), List.getElem?_set_ne (by omega),
    List.getElem?_set_ne (by omega), List.getElem?_set_ne (by omega)]

/-- Bytes outside the written window keep their value (little-endian store). -/
theorem memStoreLE_frame (m : List Nat) (a w i : Nat) (h : i < a ∨ a + 3 < i) :
    (memStoreLE m a w)[i]? = m[i]? := by
  unfold memStoreLE
  rw [List.getElem?_set_ne (by omega), List.getElem?_set_ne (by omega),
    List.getElem?_set_ne (by omega), List.getElem?_set_ne (by omega)]

theorem getD_of_getElem? (m : List Nat) (i b : Nat) (h : m[i]? = some b) : m.getD i 0 = b := by
  simp [h]

/-- Reassembling the big-endian bytes of a 32-bit word gives the word back. -/
theorem be_bytes_value (w : Nat) (hw : w < 2 ^ 32) :
    w >>> 24 % 256 * 2 ^ 24 + w >>> 16 % 256 * 2 ^ 16 + w >>> 8 % 256 * 2 ^ 8 + w % 256 = w := by
  simp only [Nat.shiftRight_eq_div_pow]
  omega

/-- Reassembling the little-endian bytes of a 32-bit word gives the word back. -/
theorem le_bytes_value (w : Nat) (hw : w < 2 ^ 32) :
    w % 256 + w >>> 8 % 256 * 2 ^ 8 + w >>> 16 % 256 * 2 ^ 16 + w >>> 24 % 256 * 2 ^ 24 = w := by
  simp only [Nat.shiftRight_eq_div_pow]
  omega

/-- A store followed by a fetch at the same address, on the memory alone. -/
theorem fetch_after_store (c : CPU) (a w : Nat) (hlen : c.mem.length = MEMORY_SIZE)
    (hb : ∀ b ∈ c.mem, b < 256) (ha : a + 3 < MEMORY_SIZE) (hw : w < 2 ^ 32) :
    fetch_word_be { c with mem := memStoreBE c.mem a w } a = .ok w := by
  have hl : (memStoreBE c.mem a w).length = MEMORY_SIZE := by rw [memStoreBE_length, hlen]
  rw [fetch_word_be_eq _ a hl (memStoreBE_byte _ _ _ hb) ha]
  obtain ⟨h0, h1, h2, h3⟩ := memStoreBE_bytes c.mem a w (by omega)
  simp only [getD_of_getElem? _ _ _ h0, getD_of_getElem? _ _ _ h1, getD_of_getElem? _ _ _ h2,
    getD_of_getElem? _ _ _ h3, be_bytes_value w hw]

/-- A data store followed by a data load at the same address, on the memory alone. -/
theorem read_after_write (c : CPU) (a w : Nat) (hlen : c.mem.length = MEMORY_SIZE)
    (hb : ∀ b ∈ c.mem, b < 256) (ha : a + 3 < MEMORY_SIZE) (hw : w < 2 ^ 32) :
    read_word_le { c with mem := memStoreLE c.mem a w } a = .ok (toInt32 w) := by
  have hl : (memStoreLE c.mem a w).length = MEMORY_SIZE := by rw [memStoreLE_length, hlen]
  rw [read_word_le_eq _ a hl (memStoreLE_byte _ _ _ hb) ha]
  obtain ⟨h0, h1, h2, h3⟩ := memStoreLE_bytes c.mem a w (by omega)
  simp only [getD_of_getElem? _ _ _ h0, getD_of_getElem? _ _ _ h1, getD_of_getElem? _ _ _ h2,
    getD_of_getElem? _ _ _ h3, le_bytes_value w hw]

theorem toInt32_of_lt (w : Nat) (hw : w < 2 ^ 32) :
    toInt32 w = if w < 2 ^ 31 then (w : Int) else (w : Int) - 2 ^ 32 := by
  unfold toInt32
  rw [Nat.mod_eq_of_lt hw]

theorem CPU.new_WF : CPU.new.WF where
  mem_size := by simp [CPU.new]
  mem_byte := by
    intro b hb
    simp [CPU.new] at hb
    omega
  regs_u32 := by intro r; simp [CPU.new]
  PC_u32 := by simp [CPU.new]
  cycle_u64 := by simp [CPU.new]

/-- Claim C6. Instruction-word round trip: for every 32-bit word `w` and every address `a` with
`a + 3 < 4096`, `store_word_be(a, w)` succeeds and `fetch_word_be(a)` on the resulting
memory returns exactly `w`. -/
theorem instruction_word_round_trip (c : CPU) (a w : Nat) (hwf : c.WF) (hw : w < 2 ^ 32)
    (ha : a + 3 < 4096) :
    ∃ c1, store_word_be c a w = .ok c1 ∧ fetch_word_be c1 a = .ok w :=
  ⟨_, store_word_be_eq c a w hwf.mem_size ha,
    fetch_after_store c a w hwf.mem_size hwf.mem_byte ha hw⟩

/-- Instance of `instruction_word_round_trip` on a concrete machine, with its hypotheses discharged. -/
theorem instruction_word_round_trip_witness :
    CPU.new.WF ∧ 0xDEADBEEF < 2 ^ 32 ∧ 4092 + 3 < 4096 ∧
    ∃ c1, store_word_be CPU.new 4092 0xDEADBEEF = .ok c1 ∧ fetch_word_be c1 4092 = .ok 0xDEADBEEF :=
  ⟨CPU.new_WF, by norm_num, by norm_num,
    instruction_word_round_trip CPU.new 4092 0xDEADBEEF CPU.new_WF (by norm_num) (by norm_num)⟩

/-- Claim C7. Data-word round trip: for every 32-bit unsigned word `w` and every address `a`
with `a + 3 < 4096`, `write_word_le(a, w)` succeeds and `read_word_le(a)` on the resulting
memory returns the two's-complement signed reinterpretation of `w` (`w` if `w < 2^31`,
otherwise `w - 2^32`). -/
theorem data_word_round_trip (c : CPU) (a w : Nat) (hwf : c.WF) (hw : w < 2 ^ 32)
    (ha : a + 3 < 4096) :
    ∃ c1, write_word_le c a w = .ok c1 ∧
      read_word_le c1 a = .ok (if w < 2 ^ 31 then (w : Int) else (w : Int) - 2 ^ 32) :=
  ⟨_, write_word_le_eq c a w hwf.mem_size ha, by
    rw [read_after_write c a w hwf.mem_size hwf.mem_byte ha hw, toInt32_of_lt w hw]⟩

/-- Instance of `data_word_round_trip` on a concrete machine, with its hypotheses discharged. -/
theorem data_word_round_trip_witness :
    CPU.new.WF ∧ 0xFFFFFFFE < 2 ^ 32 ∧ 17 + 3 < 4096 ∧
    ∃ c1, write_word_le CPU.new 17 0xFFFFFFFE = .ok c1 ∧ read_word_le c1 17 = .ok (-2) := by
  have h := data_word_round_trip CPU.new 17 0xFFFFFFFE CPU.new_WF (by norm_num) (by norm_num)
  norm_num at h
  exact ⟨CPU.new_WF, by norm_num, by norm_num, h⟩

/-- Claim C8. Byte order by access purpose: for every word `w` and every `a` with
`a + 3 < 4096`, after `store_word_be(a, w)` the byte at `a+i` is `(w >> (24 - 8i)) & 0xFF`
(most significant byte first), while after `write_word_le(a, w)` the byte at `a+i` is
`(w >> 8i) & 0xFF` (least significant byte first), for `i = 0..3`.  For `w = 0x01020304`
the bytes at `a..a+3` are `[1,2,3,4]` and `[4,3,2,1]` respectively. -/
theorem byte_order_by_purpose (c : CPU) (a w : Nat) (hlen : c.mem.length = MEMORY_SIZE)
    (ha : a + 3 < 4096) :
    ∃ c1 c2, store_word_be c a w = .ok c1 ∧ write_word_le c a w = .ok c2 ∧
      (∀ i, i < 4 → c1.mem[a + i]? = some ((w >>> (24 - 8 * i)) &&& 0xFF)) ∧
      (∀ i, i < 4 → c2.mem[a + i]? = some ((w >>> (8 * i)) &&& 0xFF)) ∧
      (w = 0x01020304 →
        (List.range 4).map (fun i => c1.mem[a + i]?) = [some 1, some 2, some 3, some 4] ∧
        (List.range 4).map (fun i => c2.mem[a + i]?) = [some 4, some 3, some 2, some 1]) := by
  have hm : a + 3 < c.mem.length := by rw [hlen]; exact ha
  obtain ⟨b0, b1, b2, b3⟩ := memStoreBE_bytes c.mem a w hm
  obtain ⟨l0, l1, l2, l3⟩ := memStoreLE_bytes c.mem a w hm
  refine ⟨_, _, store_word_be_eq c a w hlen ha, write_word_le_eq c a w hlen ha, ?_, ?_, ?_⟩
  · intro i hi
    have : i = 0 ∨ i = 1 ∨ i = 2 ∨ i = 3 := by omega
    rcases this with rfl | rfl | rfl | rfl <;> simp only [and_0xFF] <;> assumption
  · intro i hi
    have : i = 0 ∨ i = 1 ∨ i = 2 ∨ i = 3 := by omega
    rcases this with rfl | rfl | rfl | rfl <;> simp only [and_0xFF] <;> assumption
  · intro hw
    subst hw
    simp only [List.range, List.range.loop, List.map, Nat.add_zero]
    rw [b0, b1, b2, b3, l0, l1, l2, l3]
    exact ⟨rfl, rfl⟩

/-- Instance of `byte_order_by_purpose` on a concrete machine, with its hypotheses discharged. -/
theorem byte_order_by_purpose_witness :
    CPU.new.mem.length = MEMORY_SIZE ∧ 8 + 3 < 4096 ∧ ∃ c1 c2, store_word_be CPU.new 8 0x01020304 = .ok c1 ∧
      write_word_le CPU.new 8 0x01020304 = .ok c2 ∧
      (∀ i, i < 4 → c1.mem[8 + i]? = some ((0x01020304 >>> (24 - 8 * i)) &&& 0xFF)) ∧
      (∀ i, i < 4 → c2.mem[8 + i]? = some ((0x01020304 >>> (8 * i)) &&& 0xFF)) ∧
      (0x01020304 = 0x01020304 →
        (List.range 4).map (fun i => c1.mem[8 + i]?) = [some 1, some 2, some 3, some 4] ∧
        (List.range 4).map (fun i => c2.mem[8 + i]?) = [some 4, some 3, some 2, some 1]) :=
  ⟨CPU.new_WF.mem_size, by norm_num,
    byte_order_by_purpose CPU.new 8 0x01020304 CPU.new_WF.mem_size (by norm_num)⟩

/-! ## Execute stage and write-back -/
theorem effAddr_spec (regs : Nat → Nat) (IR : Nat) :
    ((effAddr regs IR : Nat) : Int)
      = ((regs (rs IR) : Int) + signext16 (imm16 IR)) % 2 ^ 32 := by
  unfold effAddr
  rw [toUInt32_wrapInt32, toUInt32_add_int]

theorem effAddr_lt (regs : Nat → Nat) (IR : Nat) : effAddr regs IR < 2 ^ 32 :=
  toUInt32_lt _

theorem execute_add (regs : Nat → Nat) (n pc IR : Nat) (hop : opcode IR = 0)
    (hfn : funct IR = 0x20) :
    execute regs n pc IR = some ⟨true, rd IR, (regs (rs IR) + regs (rt IR)) % 2 ^ 32,
      false, 0, 0, false, 0, pc⟩ := by
  simp [execute, hop, hfn, toUInt32_wrapInt32, toUInt32_add, Sched.idle]

theorem execute_sub (regs : Nat → Nat) (n pc IR : Nat) (hop : opcode IR = 0)
    (hfn : funct IR = 0x22) :
    execute regs n pc IR = some ⟨true, rd IR,
      toUInt32 (toInt32 (regs (rs IR)) - toInt32 (regs (rt IR))), false, 0, 0, false, 0, pc⟩ := by
  simp [execute, hop, hfn, toUInt32_wrapInt32, Sched.idle]

theorem execute_addi (regs : Nat → Nat) (n pc IR : Nat) (hop : opcode IR = 0x08) :
    execute regs n pc IR = some ⟨true, rt IR,
      toUInt32 (toInt32 (regs (rs IR)) + signext16 (imm16 IR)), false, 0, 0, false, 0, pc⟩ := by
  simp [execute, hop, toUInt32_wrapInt32, Sched.idle]

theorem execute_lw (regs : Nat → Nat) (n pc IR : Nat) (hop : opcode IR = 0x23) :
    execute regs n pc IR =
      if u32 (effAddr regs IR + 3) ≥ n then none
      else some ⟨false, 0, 0, false, effAddr regs IR, 0, true, rt IR, pc⟩ := by
  simp [execute, hop, effAddr, Sched.idle]

theorem execute_sw (regs : Nat → Nat) (n pc IR : Nat) (hop : opcode IR = 0x2B) :
    execute regs n pc IR =
      if u32 (effAddr regs IR + 3) ≥ n then none
      else some ⟨false, 0, 0, true, effAddr regs IR, regs (rt IR), false, 0, pc⟩ := by
  simp [execute, hop, effAddr, Sched.idle]

theorem execute_beq (regs : Nat → Nat) (n pc IR : Nat) (hop : opcode IR = 0x04) :
    execute regs n pc IR =
      if regs (rs IR) = regs (rt IR) then
        some ⟨false, 0, 0, false, 0, 0, false, 0,
          u32 (pc + u32 (toUInt32 (signext16 (imm16 IR)) <<< 2))⟩
      else some ⟨false, 0, 0, false, 0, 0, false, 0, pc⟩ := by
  simp [execute, hop, Sched.idle]

theorem execute_unimpl (regs : Nat → Nat) (n pc IR : Nat)
    (hun : (opcode IR = 0 ∧ funct IR ≠ 0x20 ∧ funct IR ≠ 0x22) ∨
      (opcode IR ≠ 0 ∧ opcode IR ≠ 0x08 ∧ opcode IR ≠ 0x23 ∧ opcode IR ≠ 0x2B ∧
        opcode IR ≠ 0x04)) :
    execute regs n pc IR = some ⟨false, 0, 0, false, 0, 0, false, 0, pc⟩ := by
  rcases hun with ⟨h0, h1, h2⟩ | ⟨h0, h1, h2, h3, h4⟩
  · simp [execute, h0, h1, h2, Sched.idle]
  · simp [execute, h0, h1, h2, h3, h4, Sched.idle]

/-- Write-back with nothing scheduled leaves the registers alone once register 0 is 0. -/
theorem writeBack_idle (regs : Nat → Nat) (h0 : regs 0 = 0) (idx val r : Nat) :
    writeBack regs false idx val r = regs r := by
  unfold writeBack
  by_cases hr : r = 0
  · subst hr; simp [h0]
  · simp [hr]

theorem writeBack_same (regs : Nat → Nat) (idx val : Nat) (hidx : idx ≠ 0) :
    writeBack regs true idx val idx = val := by
  simp [writeBack, hidx]

theorem writeBack_other (regs : Nat → Nat) (h0 : regs 0 = 0) (w : Bool) (idx val r : Nat)
    (hr : r ≠ idx) : writeBack regs w idx val r = regs r := by
  unfold writeBack
  by_cases hr0 : r = 0
  · subst hr0; simp [h0]
  · by_cases hi : idx = 0
    · cases w <;> simp [hr0, hi]
    · cases w <;> simp [hr0, hi, hr]

theorem writeBack_zero (regs : Nat → Nat) (w : Bool) (idx val : Nat) :
    writeBack regs w idx val 0 = 0 := by
  simp [writeBack]


/-- The only ways `step` returns `false`: the fetch guard, or the early return of the
`LW`/`SW` address check. -/
theorem step_halt_inv (s s1 : CPU) (h : step s = .ok (false, s1)) :
    (u32 (s.PC + 3) ≥ s.mem.length ∧ s1 = s) ∨
    (¬ u32 (s.PC + 3) ≥ s.mem.length ∧ ∃ IR, fetch_word_be s s.PC = .ok IR ∧
      execute s.regs s.mem.length (u32 (s.PC + 4)) IR = none ∧
      s1 = s.advance (u32 (s.PC + 4))) := by
  unfold step at h
  by_cases hg : u32 (s.PC + 3) ≥ s.mem.length
  · rw [if_pos hg] at h
    left
    injection h with h
    injection h with _ h2
    exact ⟨hg, h2.symm⟩
  · rw [if_neg hg] at h
    right
    refine ⟨hg, ?_⟩
    cases hf : fetch_word_be s s.PC with
    | error e => rw [hf] at h; cases h
    | ok IR =>
      rw [hf] at h
      refine ⟨IR, rfl, ?_⟩
      simp only [bind, Except.bind, pure, Except.pure] at h
      cases hx : execute s.regs s.mem.length (u32 (s.PC + 4)) IR with
      | none =>
        rw [hx] at h
        simp only [] at h
        injection h with h
        injection h with _ h2
        exact ⟨rfl, h2.symm⟩
      | some l =>
        rw [hx] at h
        simp only [] at h
        exfalso
        repeat' split at h
        all_goals cases h

/-! ## Unrecognized instructions -/

theorem fetch_word_be_congr (c c1 : CPU) (h : c.mem = c1.mem) (a : Nat) :
    fetch_word_be c a = fetch_word_be c1 a := by
  unfold fetch_word_be; rw [h]

theorem read_word_le_congr (c c1 : CPU) (h : c.mem = c1.mem) (a : Nat) :
    read_word_le c a = read_word_le c1 a := by
  unfold read_word_le; rw [h]

theorem CPU.sample_WF (w r8 r9 : Nat) (h8 : r8 < 2 ^ 32) (h9 : r9 < 2 ^ 32) :
    (CPU.sample w r8 r9).WF where
  mem_size := by simp [CPU.sample, memStoreBE_length, CPU.new]
  mem_byte := memStoreBE_byte _ _ _ CPU.new_WF.mem_byte
  regs_u32 := by
    intro r
    simp only [CPU.sample]
    split
    · exact h8
    · split
      · exact h9
      · norm_num
  PC_u32 := by simp [CPU.sample]
  cycle_u64 := by simp [CPU.sample]

theorem CPU.sample_fetch (w r8 r9 : Nat) (hw : w < 2 ^ 32) :
    fetch_word_be (CPU.sample w r8 r9) (CPU.sample w r8 r9).PC = .ok w := by
  rw [fetch_word_be_congr (CPU.sample w r8 r9)
    { CPU.new with mem := memStoreBE CPU.new.mem 0 w } rfl]
  exact fetch_after_store CPU.new 0 w CPU.new_WF.mem_size CPU.new_WF.mem_byte (by decide) hw

/-- Claim C5. Unrecognized instructions are no-ops: for every machine state with register 0
equal to 0 whose fetch succeeds (so the fetch guard was passed) with a word that has opcode 0
and funct not in {0x20, 0x22}, or an opcode not in {0, 0x08, 0x23, 0x2B, 0x04}, `step`
returns Continue (`true`), every register and every memory byte is unchanged, and the new PC
is the old PC + 4 (mod 2^32). -/
theorem unrecognized_is_nop (s : CPU) (IR : Nat) (hwf : s.WF) (h0 : s.regs 0 = 0)
    (hf : fetch_word_be s s.PC = .ok IR)
    (hun : (opcode IR = 0 ∧ funct IR ≠ 0x20 ∧ funct IR ≠ 0x22) ∨
      (opcode IR ≠ 0 ∧ opcode IR ≠ 0x08 ∧ opcode IR ≠ 0x23 ∧ opcode IR ≠ 0x2B ∧
        opcode IR ≠ 0x04)) :
    ∃ s1, step s = .ok (true, s1) ∧ (∀ r, s1.regs r = s.regs r) ∧ s1.mem = s.mem ∧
      s1.PC = (s.PC + 4) % 2 ^ 32 := by
  have hpc := fetch_ok_bound s hwf IR hf
  have hx := execute_unimpl s.regs MEMORY_SIZE (s.PC + 4) IR hun
  refine ⟨_, step_of_execute_reg s IR _ hwf.mem_size hpc hf hx rfl rfl, ?_, rfl, ?_⟩
  · intro r
    exact writeBack_idle s.regs h0 _ _ r
  · have h4 : MEMORY_SIZE = 4096 := rfl
    simp only [Sched.idle, CPU.advance]
    omega

/-- Instance of `unrecognized_is_nop` on a concrete machine, with its hypotheses discharged. -/
theorem unrecognized_is_nop_witness :
    (CPU.sample 0x0128482A 7 9).WF ∧ (CPU.sample 0x0128482A 7 9).regs 0 = 0 ∧
    fetch_word_be (CPU.sample 0x0128482A 7 9) (CPU.sample 0x0128482A 7 9).PC = .ok 0x0128482A ∧
    ((opcode 0x0128482A = 0 ∧ funct 0x0128482A ≠ 0x20 ∧ funct 0x0128482A ≠ 0x22) ∨
      (opcode 0x0128482A ≠ 0 ∧ opcode 0x0128482A ≠ 0x08 ∧ opcode 0x0128482A ≠ 0x23 ∧
        opcode 0x0128482A ≠ 0x2B ∧ opcode 0x0128482A ≠ 0x04)) ∧
    ∃ s1, step (CPU.sample 0x0128482A 7 9) = .ok (true, s1) ∧
      (∀ r, s1.regs r = (CPU.sample 0x0128482A 7 9).regs r) ∧
      s1.mem = (CPU.sample 0x0128482A 7 9).mem ∧
      s1.PC = ((CPU.sample 0x0128482A 7 9).PC + 4) % 2 ^ 32 :=
  ⟨CPU.sample_WF _ _ _ (by norm_num) (by norm_num), rfl,
    CPU.sample_fetch _ _ _ (by norm_num), Or.inl (by decide),
    unrecognized_is_nop _ _ (CPU.sample_WF _ _ _ (by norm_num) (by norm_num)) rfl
      (CPU.sample_fetch _ _ _ (by norm_num)) (Or.inl (by decide))⟩

/-! ## ADD, SUB and BEQ -/

/-- Claim C9. ADD/SUB wrap silently: for every machine state with register 0 equal to 0 whose
fetch succeeds with a word of opcode 0 and funct 0x20 (ADD) or 0x22 (SUB), `step` returns
Continue for all operand values; if `rd != 0`, register `rd` afterwards holds
`(regs[rs] + regs[rt]) mod 2^32` for ADD and `(regs[rs] - regs[rt]) mod 2^32` for SUB (old
values, also when `rd` coincides with `rs` or `rt`); every other register and every memory
byte is unchanged and the new PC is the old PC + 4.  In particular `0x7FFFFFFF + 1` yields
`0x80000000`. -/
theorem add_sub_wrap (s : CPU) (IR : Nat) (hwf : s.WF) (h0 : s.regs 0 = 0)
    (hf : fetch_word_be s s.PC = .ok IR) (hop : opcode IR = 0)
    (hfn : funct IR = 0x20 ∨ funct IR = 0x22) :
    ∃ s1, step s = .ok (true, s1) ∧
      (rd IR ≠ 0 → funct IR = 0x20 →
        s1.regs (rd IR) = (s.regs (rs IR) + s.regs (rt IR)) % 2 ^ 32) ∧
      (rd IR ≠ 0 → funct IR = 0x22 →
        ((s1.regs (rd IR) : Nat) : Int)
          = ((s.regs (rs IR) : Int) - (s.regs (rt IR) : Int)) % 2 ^ 32) ∧
      (∀ r, r ≠ rd IR → s1.regs r = s.regs r) ∧ s1.mem = s.mem ∧ s1.PC = s.PC + 4 ∧
      (rd IR ≠ 0 → funct IR = 0x20 → s.regs (rs IR) = 0x7FFFFFFF → s.regs (rt IR) = 1 →
        s1.regs (rd IR) = 0x80000000) := by
  have hpc := fetch_ok_bound s hwf IR hf
  rcases hfn with hadd | hsub
  · have hx := execute_add s.regs MEMORY_SIZE (s.PC + 4) IR hop hadd
    refine ⟨_, step_of_execute_reg s IR _ hwf.mem_size hpc hf hx rfl rfl, ?_, ?_, ?_, rfl, rfl, ?_⟩
    · intro hrd _
      exact writeBack_same s.regs _ _ hrd
    · intro _ hsub
      rw [hadd] at hsub
      exact absurd hsub (by decide)
    · intro r hr
      exact writeBack_other s.regs h0 _ _ _ r hr
    · intro hrd _ ha hb
      simp only [Sched.idle]
      rw [writeBack_same s.regs _ _ hrd, ha, hb]
      norm_num
  · have hx := execute_sub s.regs MEMORY_SIZE (s.PC + 4) IR hop hsub
    refine ⟨_, step_of_execute_reg s IR _ hwf.mem_size hpc hf hx rfl rfl, ?_, ?_, ?_, rfl, rfl, ?_⟩
    · intro _ hadd
      rw [hsub] at hadd
      exact absurd hadd (by decide)
    · intro hrd _
      simp only [Sched.idle]
      rw [writeBack_same s.regs _ _ hrd]
      exact toUInt32_sub _ _
    · intro r hr
      exact writeBack_other s.regs h0 _ _ _ r hr
    · intro _ hadd
      rw [hsub] at hadd
      exact absurd hadd (by decide)

/-- Instance of `add_sub_wrap` on a concrete machine, with its hypotheses discharged. -/
theorem add_sub_wrap_witness :
    (CPU.sample 0x01095020 0x7FFFFFFF 1).WF ∧ (CPU.sample 0x01095020 0x7FFFFFFF 1).regs 0 = 0 ∧
    fetch_word_be (CPU.sample 0x01095020 0x7FFFFFFF 1) (CPU.sample 0x01095020 0x7FFFFFFF 1).PC
      = .ok 0x01095020 ∧
    opcode 0x01095020 = 0 ∧ funct 0x01095020 = 0x20 ∧ rd 0x01095020 = 10 ∧
    ∃ s1, step (CPU.sample 0x01095020 0x7FFFFFFF 1) = .ok (true, s1) ∧
      s1.regs 10 = 0x80000000 := by
  have hwf := CPU.sample_WF 0x01095020 0x7FFFFFFF 1 (by norm_num) (by norm_num)
  have hf := CPU.sample_fetch 0x01095020 0x7FFFFFFF 1 (by norm_num)
  obtain ⟨s1, hs, _, _, _, _, _, hex⟩ :=
    add_sub_wrap (CPU.sample 0x01095020 0x7FFFFFFF 1) 0x01095020 hwf rfl hf (by decide)
      (Or.inl (by decide))
  exact ⟨hwf, rfl, hf, by decide, by decide, by decide, s1, hs,
    hex (by decide) (by decide) rfl rfl⟩

/-- Claim C10. BEQ semantics: for every machine state with register 0 equal to 0 whose fetch
succeeds with a word of opcode 0x04, `step` returns Continue, no register and no memory
byte changes, and the new PC is `(old PC + 4 + 4 * sign_extend16(imm16)) mod 2^32` when
`regs[rs]` and `regs[rt]` are equal, and old PC + 4 otherwise.  With equal operands,
`imm16 = 0xFFFF` gives new PC = old PC and `imm16 = 0` gives new PC = old PC + 4. -/
theorem beq_semantics (s : CPU) (IR : Nat) (hwf : s.WF) (h0 : s.regs 0 = 0)
    (hf : fetch_word_be s s.PC = .ok IR) (hop : opcode IR = 0x04) :
    ∃ s1, step s = .ok (true, s1) ∧ (∀ r, s1.regs r = s.regs r) ∧ s1.mem = s.mem ∧
      (s.regs (rs IR) = s.regs (rt IR) →
        ((s1.PC : Nat) : Int) = ((s.PC : Int) + 4 + 4 * signext16 (imm16 IR)) % 2 ^ 32) ∧
      (s.regs (rs IR) ≠ s.regs (rt IR) → s1.PC = s.PC + 4) ∧
      (s.regs (rs IR) = s.regs (rt IR) → imm16 IR = 0xFFFF → s1.PC = s.PC) ∧
      (s.regs (rs IR) = s.regs (rt IR) → imm16 IR = 0 → s1.PC = s.PC + 4) := by
  have hpc := fetch_ok_bound s hwf IR hf
  have h4 : MEMORY_SIZE = 4096 := rfl
  have hx := execute_beq s.regs MEMORY_SIZE (s.PC + 4) IR hop
  have hPC : ∀ i : Int, ((u32 (s.PC + 4 + u32 (toUInt32 i <<< 2)) : Nat) : Int)
      = ((s.PC : Int) + 4 + 4 * i) % 2 ^ 32 := by
    intro i
    simp only [u32, toUInt32, Nat.shiftLeft_eq]
    omega
  by_cases heq : s.regs (rs IR) = s.regs (rt IR)
  · rw [if_pos heq] at hx
    refine ⟨_, step_of_execute_reg s IR _ hwf.mem_size hpc hf hx rfl rfl, ?_, rfl, ?_, ?_, ?_, ?_⟩
    · intro r
      exact writeBack_idle s.regs h0 _ _ r
    · intro _
      exact hPC _
    · intro hne
      exact absurd heq hne
    · intro _ himm
      have h := hPC (signext16 (imm16 IR))
      rw [himm] at h
      have hm1 : signext16 0xFFFF = -1 := by decide
      rw [hm1] at h
      simp only [Sched.idle, CPU.advance, himm, hm1]
      omega
    · intro _ himm
      have h := hPC (signext16 (imm16 IR))
      rw [himm] at h
      have hz : signext16 0 = 0 := by decide
      rw [hz] at h
      simp only [Sched.idle, CPU.advance, himm, hz]
      omega
  · rw [if_neg heq] at hx
    refine ⟨_, step_of_execute_reg s IR _ hwf.mem_size hpc hf hx rfl rfl, ?_, rfl, ?_, ?_, ?_, ?_⟩
    · intro r
      exact writeBack_idle s.regs h0 _ _ r
    · intro h
      exact absurd h heq
    · intro _
      rfl
    · intro h
      exact absurd h heq
    · intro h
      exact absurd h heq

/-- Instance of `beq_semantics` on a concrete machine, with its hypotheses discharged. -/
theorem beq_semantics_witness :
    (CPU.sample 0x1109FFFF 3 3).WF ∧ (CPU.sample 0x1109FFFF 3 3).regs 0 = 0 ∧
    fetch_word_be (CPU.sample 0x1109FFFF 3 3) (CPU.sample 0x1109FFFF 3 3).PC = .ok 0x1109FFFF ∧
    opcode 0x1109FFFF = 0x04 ∧ rs 0x1109FFFF = 8 ∧ rt 0x1109FFFF = 9 ∧
    imm16 0x1109FFFF = 0xFFFF ∧
    ∃ s1, step (CPU.sample 0x1109FFFF 3 3) = .ok (true, s1) ∧
      s1.PC = (CPU.sample 0x1109FFFF 3 3).PC := by
  have hwf := CPU.sample_WF 0x1109FFFF 3 3 (by norm_num) (by norm_num)
  have hf := CPU.sample_fetch 0x1109FFFF 3 3 (by norm_num)
  obtain ⟨s1, hs, _, _, _, _, hback, _⟩ :=
    beq_semantics (CPU.sample 0x1109FFFF 3 3) 0x1109FFFF hwf rfl hf (by decide)
  exact ⟨hwf, rfl, hf, by decide, by decide, by decide, by decide, s1, hs,
    hback (by decide) (by decide)⟩

/-! ## Halting steps -/

/-- Claim C3. Fault atomicity: for every machine state, if `step` fetches an `LW` (opcode
0x23) or `SW` (opcode 0x2B) and returns Halt (`false`), then the halt came from the
effective-address bounds check, and every register and every memory byte has the same
value after the step as before it. -/
theorem memory_fault_atomic (s s1 : CPU) (IR : Nat)
    (hf : fetch_word_be s s.PC = .ok IR) (hop : opcode IR = 0x23 ∨ opcode IR = 0x2B)
    (hhalt : step s = .ok (false, s1)) :
    u32 (effAddr s.regs IR + 3) ≥ s.mem.length ∧ (∀ r, s1.regs r = s.regs r) ∧
      s1.mem = s.mem := by
  rcases step_halt_inv s s1 hhalt with ⟨hg, _⟩ | ⟨_, IR1, hf1, hx, hs1⟩
  · unfold fetch_word_be at hf
    rw [if_pos hg] at hf
    cases hf
  · rw [hf] at hf1
    injection hf1 with hIR
    subst hIR
    subst hs1
    refine ⟨?_, fun _ => rfl, rfl⟩
    by_contra hcon
    rcases hop with h | h
    · rw [execute_lw _ _ _ _ h, if_neg hcon] at hx
      cases hx
    · rw [execute_sw _ _ _ _ h, if_neg hcon] at hx
      cases hx

/-- Instance of `memory_fault_atomic` on a concrete machine, with its hypotheses discharged. -/
theorem memory_fault_atomic_witness :
    fetch_word_be (CPU.sample 0x8D090000 5000 7) (CPU.sample 0x8D090000 5000 7).PC
      = .ok 0x8D090000 ∧
    opcode 0x8D090000 = 0x23 ∧
    step (CPU.sample 0x8D090000 5000 7)
      = .ok (false, (CPU.sample 0x8D090000 5000 7).advance 4) ∧
    (∀ r, ((CPU.sample 0x8D090000 5000 7).advance 4).regs r
      = (CPU.sample 0x8D090000 5000 7).regs r) ∧
    ((CPU.sample 0x8D090000 5000 7).advance 4).mem = (CPU.sample 0x8D090000 5000 7).mem := by
  have hwf := CPU.sample_WF 0x8D090000 5000 7 (by norm_num) (by norm_num)
  have hf := CPU.sample_fetch 0x8D090000 5000 7 (by norm_num)
  have hx : execute (CPU.sample 0x8D090000 5000 7).regs MEMORY_SIZE
      ((CPU.sample 0x8D090000 5000 7).PC + 4) 0x8D090000 = none := by
    rw [execute_lw _ _ _ _ (by decide)]
    exact if_pos (by decide)
  have hs := step_of_execute_none _ _ hwf.mem_size (by decide) hf hx
  have h := memory_fault_atomic _ _ _ hf (Or.inl (by decide)) hs
  exact ⟨hf, by decide, hs, h.2.1, h.2.2⟩

theorem fetch_word_be_wrapped (c : CPU) (a : Nat) (hlen : c.mem.length = MEMORY_SIZE)
    (h1 : 2 ^ 32 - 3 ≤ a) (h2 : a < 2 ^ 32) : fetch_word_be c a = .error .outOfBounds := by
  have h4 : MEMORY_SIZE = 4096 := rfl
  unfold fetch_word_be
  have e3 : u32 (a + 3) = a + 3 - 2 ^ 32 := by unfold u32; omega
  have e0 : u32 (a + 0) = a := u32_of_lt h2
  rw [e3, e0, if_neg (by omega), rdByte_of_ge _ _ (by omega)]
  rfl

theorem read_word_le_wrapped (c : CPU) (a : Nat) (hlen : c.mem.length = MEMORY_SIZE)
    (h1 : 2 ^ 32 - 3 ≤ a) (h2 : a < 2 ^ 32) : read_word_le c a = .error .outOfBounds := by
  have h4 : MEMORY_SIZE = 4096 := rfl
  unfold read_word_le
  have e3 : u32 (a + 3) = a + 3 - 2 ^ 32 := by unfold u32; omega
  have e0 : u32 (a + 0) = a := u32_of_lt h2
  rw [e3, e0, if_neg (by omega), rdByte_of_ge _ _ (by omega)]
  rfl

/-- A fetch only depends on the four bytes of its window. -/
theorem fetch_word_be_of_bytes (c c1 : CPU) (a : Nat) (hl : c1.mem.length = c.mem.length)
    (hb : ∀ j, a ≤ j → j ≤ a + 3 → c1.mem[j]? = c.mem[j]?) (ha : a + 3 < 2 ^ 32) :
    fetch_word_be c1 a = fetch_word_be c a := by
  have e0 : u32 (a + 0) = a := u32_of_lt (by omega)
  have e1 : u32 (a + 1) = a + 1 := u32_of_lt (by omega)
  have e2 : u32 (a + 2) = a + 2 := u32_of_lt (by omega)
  have e3 : u32 (a + 3) = a + 3 := u32_of_lt (by omega)
  unfold fetch_word_be rdByte
  rw [e0, e1, e2, e3, hl, hb a (by omega) (by omega), hb (a + 1) (by omega) (by omega),
    hb (a + 2) (by omega) (by omega), hb (a + 3) (by omega) (by omega)]

/-- The loader loop: every word can be fetched back from its slot, the machine is otherwise
untouched, and so is every byte outside the loaded range. -/
theorem load_words_spec (ws : List Nat) : ∀ (c : CPU) (a : Nat),
    c.mem.length = MEMORY_SIZE → (∀ b ∈ c.mem, b < 256) → a + 4 * ws.length ≤ MEMORY_SIZE →
    (∀ w ∈ ws, w < 2 ^ 32) →
    ∃ c1, load_words c a ws = .ok c1 ∧ c1.mem.length = MEMORY_SIZE ∧
      (∀ b ∈ c1.mem, b < 256) ∧ c1.regs = c.regs ∧ c1.PC = c.PC ∧ c1.cycle = c.cycle ∧
      (∀ i, i < ws.length → fetch_word_be c1 (a + 4 * i) = .ok (ws.getD i 0)) ∧
      (∀ j, j < a ∨ a + 4 * ws.length ≤ j → c1.mem[j]? = c.mem[j]?) := by
  have h4 : MEMORY_SIZE = 4096 := rfl
  induction ws with
  | nil =>
    intro c a hl hb _ _
    exact ⟨c, rfl, hl, hb, rfl, rfl, rfl, fun i hi => absurd hi (by simp), fun _ _ => rfl⟩
  | cons w ws ih =>
    intro c a hl hb ha hw
    simp only [List.length_cons] at ha
    have hst := store_word_be_eq c a w hl (by omega)
    have hl' : (memStoreBE c.mem a w).length = MEMORY_SIZE := by rw [memStoreBE_length, hl]
    obtain ⟨c1, h1, hl1, hb1, hr, hp, hc, hfetch, hframe⟩ :=
      ih { c with mem := memStoreBE c.mem a w } (a + 4) hl' (memStoreBE_byte _ _ _ hb)
        (by omega) (fun x hx => hw x (List.mem_cons_of_mem _ hx))
    refine ⟨c1, ?_, hl1, hb1, hr, hp, hc, ?_, ?_⟩
    · unfold load_words
      rw [hst]
      simp only [bind, Except.bind]
      rw [u32_of_lt (by omega)]
      exact h1
    · intro i hi
      cases i with
      | zero =>
        have hfr : fetch_word_be c1 a
            = fetch_word_be { c with mem := memStoreBE c.mem a w } a :=
          fetch_word_be_of_bytes _ c1 a (by rw [hl1, hl'])
            (fun j _ hj2 => hframe j (Or.inl (by omega))) (by omega)
        simp only [Nat.mul_zero, Nat.add_zero, List.getD_cons_zero]
        rw [hfr]
        exact fetch_after_store c a w hl hb (by omega) (hw w (List.mem_cons_self _ _))
      | succ i =>
        have h := hfetch i (by simpa using hi)
        have e : a + 4 * (i + 1) = a + 4 + 4 * i := by omega
        rw [e, List.getD_cons_succ]
        exact h
    · intro j hj
      simp only [List.length_cons] at hj
      rw [hframe j (by omega)]
      exact memStoreBE_frame c.mem a w j (by omega)

/-! ## One step, by instruction -/

theorem step_addi (s : CPU) (IR : Nat) (hlen : s.mem.length = MEMORY_SIZE)
    (hpc : s.PC + 3 < MEMORY_SIZE) (hf : fetch_word_be s s.PC = .ok IR)
    (hop : opcode IR = 0x08) :
    step s = .ok (true,
      { mem := s.mem,
        regs := writeBack s.regs true (rt IR)
          (toUInt32 (toInt32 (s.regs (rs IR)) + signext16 (imm16 IR))),
        PC := s.PC + 4, cycle := (s.cycle + 1) % 2 ^ 64 }) :=
  step_of_execute_reg s IR _ hlen hpc hf (execute_addi s.regs _ _ IR hop) rfl rfl

theorem step_add (s : CPU) (IR : Nat) (hlen : s.mem.length = MEMORY_SIZE)
    (hpc : s.PC + 3 < MEMORY_SIZE) (hf : fetch_word_be s s.PC = .ok IR)
    (hop : opcode IR = 0) (hfn : funct IR = 0x20) :
    step s = .ok (true,
      { mem := s.mem,
        regs := writeBack s.regs true (rd IR) ((s.regs (rs IR) + s.regs (rt IR)) % 2 ^ 32),
        PC := s.PC + 4, cycle := (s.cycle + 1) % 2 ^ 64 }) :=
  step_of_execute_reg s IR _ hlen hpc hf (execute_add s.regs _ _ IR hop hfn) rfl rfl

theorem step_beq_taken (s : CPU) (IR : Nat) (hlen : s.mem.length = MEMORY_SIZE)
    (hpc : s.PC + 3 < MEMORY_SIZE) (hf : fetch_word_be s s.PC = .ok IR)
    (hop : opcode IR = 0x04) (heq : s.regs (rs IR) = s.regs (rt IR)) :
    step s = .ok (true,
      { mem := s.mem, regs := writeBack s.regs false 0 0,
        PC := u32 (s.PC + 4 + u32 (toUInt32 (signext16 (imm16 IR)) <<< 2)),
        cycle := (s.cycle + 1) % 2 ^ 64 }) := by
  have hx := execute_beq s.regs MEMORY_SIZE (s.PC + 4) IR hop
  rw [if_pos heq] at hx
  exact step_of_execute_reg s IR _ hlen hpc hf hx rfl rfl

theorem step_beq_not_taken (s : CPU) (IR : Nat) (hlen : s.mem.length = MEMORY_SIZE)
    (hpc : s.PC + 3 < MEMORY_SIZE) (hf : fetch_word_be s s.PC = .ok IR)
    (hop : opcode IR = 0x04) (hne : s.regs (rs IR) ≠ s.regs (rt IR)) :
    step s = .ok (true,
      { mem := s.mem, regs := writeBack s.regs false 0 0,
        PC := s.PC + 4, cycle := (s.cycle + 1) % 2 ^ 64 }) := by
  have hx := execute_beq s.regs MEMORY_SIZE (s.PC + 4) IR hop
  rw [if_neg hne] at hx
  exact step_of_execute_reg s IR _ hlen hpc hf hx rfl rfl

theorem step_unimpl (s : CPU) (IR : Nat) (hlen : s.mem.length = MEMORY_SIZE)
    (hpc : s.PC + 3 < MEMORY_SIZE) (hf : fetch_word_be s s.PC = .ok IR)
    (hun : (opcode IR = 0 ∧ funct IR ≠ 0x20 ∧ funct IR ≠ 0x22) ∨
      (opcode IR ≠ 0 ∧ opcode IR ≠ 0x08 ∧ opcode IR ≠ 0x23 ∧ opcode IR ≠ 0x2B ∧
        opcode IR ≠ 0x04)) :
    step s = .ok (true,
      { mem := s.mem, regs := writeBack s.regs false 0 0,
        PC := s.PC + 4, cycle := (s.cycle + 1) % 2 ^ 64 }) :=
  step_of_execute_reg s IR _ hlen hpc hf (execute_unimpl s.regs _ _ IR hun) rfl rfl

theorem step_sw (s : CPU) (IR : Nat) (hlen : s.mem.length = MEMORY_SIZE)
    (hpc : s.PC + 3 < MEMORY_SIZE) (hf : fetch_word_be s s.PC = .ok IR)
    (hop : opcode IR = 0x2B) (ha : effAddr s.regs IR + 3 < MEMORY_SIZE) :
    step s = .ok (true,
      { mem := memStoreLE s.mem (effAddr s.regs IR) (s.regs (rt IR)),
        regs := writeBack s.regs false 0 0,
        PC := s.PC + 4, cycle := (s.cycle + 1) % 2 ^ 64 }) := by
  have h4 : MEMORY_SIZE = 4096 := rfl
  have hx := execute_sw s.regs MEMORY_SIZE (s.PC + 4) IR hop
  rw [if_neg (by rw [u32_of_lt (by omega)]; omega)] at hx
  exact step_of_execute_store s IR _ hlen hpc hf hx rfl rfl ha

theorem step_lw (s : CPU) (IR : Nat) (hlen : s.mem.length = MEMORY_SIZE)
    (hb : ∀ b ∈ s.mem, b < 256)
    (hpc : s.PC + 3 < MEMORY_SIZE) (hf : fetch_word_be s s.PC = .ok IR)
    (hop : opcode IR = 0x23) (ha : effAddr s.regs IR + 3 < MEMORY_SIZE) :
    step s = .ok (true,
      { mem := s.mem,
        regs := writeBack s.regs true (rt IR)
          ((s.mem.getD (effAddr s.regs IR) 0 + s.mem.getD (effAddr s.regs IR + 1) 0 * 2 ^ 8
            + s.mem.getD (effAddr s.regs IR + 2) 0 * 2 ^ 16
            + s.mem.getD (effAddr s.regs IR + 3) 0 * 2 ^ 24) % 2 ^ 32),
        PC := s.PC + 4, cycle := (s.cycle + 1) % 2 ^ 64 }) := by
  have h4 : MEMORY_SIZE = 4096 := rfl
  have hx := execute_lw s.regs MEMORY_SIZE (s.PC + 4) IR hop
  rw [if_neg (by rw [u32_of_lt (by omega)]; omega)] at hx
  exact step_of_execute_load s IR _ hlen hb hpc hf hx rfl rfl ha

/-! ## Wrapped effective address -/

/-- A load whose effective address is one of the last three 32-bit values passes both
address checks (`addr + 3` wraps) and then indexes `mem` out of range. -/
theorem step_lw_wrapped (s : CPU) (IR : Nat) (hlen : s.mem.length = MEMORY_SIZE)
    (hpc : s.PC + 3 < MEMORY_SIZE) (hf : fetch_word_be s s.PC = .ok IR)
    (hop : opcode IR = 0x23) (ha : 2 ^ 32 - 3 ≤ effAddr s.regs IR) :
    step s = .error .outOfBounds := by
  have h4 : MEMORY_SIZE = 4096 := rfl
  have hlt := effAddr_lt s.regs IR
  have e3 : u32 (s.PC + 3) = s.PC + 3 := u32_of_lt (by omega)
  have e4 : u32 (s.PC + 4) = s.PC + 4 := u32_of_lt (by omega)
  have ea : ¬ (u32 (effAddr s.regs IR + 3) ≥ MEMORY_SIZE) := by unfold u32; omega
  have hx := execute_lw s.regs MEMORY_SIZE (s.PC + 4) IR hop
  rw [if_neg ea] at hx
  unfold step
  rw [e3, e4, if_neg (by omega), hf, hlen]
  simp only [bind, Except.bind, pure, Except.pure, hx]
  rw [read_word_le_wrapped
    { mem := s.mem, regs := s.regs, PC := s.PC + 4, cycle := (s.cycle + 1) % 2 ^ 64 } _ hlen ha hlt]
  simp

/-- Claim C2, at the failing input.  The two-word program `ADDI $8,$0,-1; LW $9,0($8)`
loaded into a fresh machine: the first step continues and leaves `0xFFFFFFFF` in register
8; the second step fetches the `LW`, whose effective address `a = 0xFFFFFFFF` has
`a + 3 >= 4096`, but `step` does not return Halt: `a + 3` wraps to 2, both address checks
are passed and `read_word_le` indexes `mem` at `0xFFFFFFFF`. -/
theorem lw_wrapped_address_not_halted :
    ∃ c s1, load_words CPU.new 0 [0x2008FFFF, 0x8D090000] = .ok c ∧
      step c = .ok (true, s1) ∧ fetch_word_be s1 s1.PC = .ok 0x8D090000 ∧
      opcode 0x8D090000 = 0x23 ∧ effAddr s1.regs 0x8D090000 = 0xFFFFFFFF ∧
      0xFFFFFFFF + 3 ≥ 4096 ∧ step s1 = .error .outOfBounds := by
  obtain ⟨c, hload, hl, hb, hr, hp, _, hfetch, _⟩ :=
    load_words_spec [0x2008FFFF, 0x8D090000] CPU.new 0 CPU.new_WF.mem_size
      CPU.new_WF.mem_byte (by decide) (by decide)
  have hpc0 : c.PC = 0 := hp
  have hf0 : fetch_word_be c c.PC = .ok 0x2008FFFF := by
    rw [hpc0]; exact hfetch 0 (by decide)
  have hf1 : fetch_word_be c 4 = .ok 0x8D090000 := hfetch 1 (by decide)
  have hs0 := step_addi c 0x2008FFFF hl (by rw [hpc0]; decide) hf0 (by decide)
  refine ⟨c, _, hload, hs0, ?_, by decide, ?_, by decide, ?_⟩
  · simp only [hpc0]
    exact (fetch_word_be_congr _ c rfl 4).trans hf1
  · simp only [hr, CPU.new]
    decide
  · refine step_lw_wrapped _ 0x8D090000 hl ?_ ?_ (by decide) ?_
    · simp only [hpc0]; decide
    · simp only [hpc0]
      exact (fetch_word_be_congr _ c rfl 4).trans hf1
    · simp only [hr, CPU.new]
      decide

/-! ## The sample program prog2 -/
theorem Prog2Loaded_congr (s s1 : CPU) (h : s1.mem = s.mem) (hL : Prog2Loaded s) :
    Prog2Loaded s1 := by
  obtain ⟨h1, h2, h3, h4⟩ := hL
  refine ⟨by rw [h]; exact h1, by rw [h]; exact h2, ?_, by rw [h]; exact h4⟩
  intro i hi
  rw [fetch_word_be_congr s1 s h]
  exact h3 i hi

theorem prog2_loaded :
    ∃ c, load_words CPU.new 0 prog2 = .ok c ∧ Prog2Loaded c ∧ c.PC = 0 ∧ c.regs 0 = 0 := by
  obtain ⟨c, hload, hl, hb, hr, hp, _, hfetch, hframe⟩ :=
    load_words_spec prog2 CPU.new 0 CPU.new_WF.mem_size CPU.new_WF.mem_byte (by decide)
      (by decide)
  refine ⟨c, hload, ⟨hl, hb, ?_, ?_⟩, hp, by rw [hr]; rfl⟩
  · intro i hi
    have h := hfetch i hi
    rw [Nat.zero_add] at h
    exact h
  · intro j hj1 hj2
    rw [hframe j (Or.inr hj1)]
    exact List.getElem?_replicate_of_lt hj2

theorem run_until_halt_step (fuel : Nat) (s s1 : CPU) (h : step s = .ok (true, s1)) :
    run_until_halt (fuel + 1) s = run_until_halt fuel s1 := by
  simp [run_until_halt, h]

theorem run_until_halt_halt (fuel : Nat) (s s1 : CPU) (h : step s = .ok (false, s1)) :
    run_until_halt (fuel + 1) s = .ok (some s1) := by
  simp [run_until_halt, h]

/-- Address 0: `ADDI $8,$0,5`. -/
theorem prog2_step0 (s : CPU) (hL : Prog2Loaded s) (hpc : s.PC = 0) (h0 : s.regs 0 = 0) :
    ∃ s1, step s = .ok (true, s1) ∧ Prog2Loaded s1 ∧ s1.PC = 4 ∧ s1.regs 0 = 0 ∧
      s1.regs 8 = 5 := by
  have hf : fetch_word_be s s.PC = .ok 0x20080005 := by rw [hpc]; exact hL.2.2.1 0 (by decide)
  have hs := step_addi s 0x20080005 hL.1 (by rw [hpc]; decide) hf (by decide)
  have e1 : rt 0x20080005 = 8 := by decide
  have e2 : rs 0x20080005 = 0 := by decide
  refine ⟨_, hs, Prog2Loaded_congr s _ rfl hL, ?_, ?_, ?_⟩
  · dsimp only; rw [hpc]
  · dsimp only; exact writeBack_zero _ _ _ _
  · dsimp only
    rw [e1, e2, h0, writeBack_same _ _ _ (by decide)]
    decide

/-- Address 4: `ADDI $9,$0,0`. -/
theorem prog2_step1 (s : CPU) (hL : Prog2Loaded s) (hpc : s.PC = 4) (h0 : s.regs 0 = 0) :
    ∃ s1, step s = .ok (true, s1) ∧ Prog2Loaded s1 ∧ s1.PC = 8 ∧ s1.regs 0 = 0 ∧
      s1.regs 8 = s.regs 8 ∧ s1.regs 9 = 0 := by
  have hf : fetch_word_be s s.PC = .ok 0x20090000 := by rw [hpc]; exact hL.2.2.1 1 (by decide)
  have hs := step_addi s 0x20090000 hL.1 (by rw [hpc]; decide) hf (by decide)
  have e1 : rt 0x20090000 = 9 := by decide
  have e2 : rs 0x20090000 = 0 := by decide
  refine ⟨_, hs, Prog2Loaded_congr s _ rfl hL, ?_, ?_, ?_, ?_⟩
  · dsimp only; rw [hpc]
  · dsimp only; exact writeBack_zero _ _ _ _
  · dsimp only
    rw [e1]
    exact writeBack_other s.regs h0 _ _ _ 8 (by decide)
  · dsimp only
    rw [e1, e2, h0, writeBack_same _ _ _ (by decide)]
    decide

/-- Address 8: `ADD $9,$9,$8`. -/
theorem prog2_step2 (s : CPU) (hL : Prog2Loaded s) (hpc : s.PC = 8) (h0 : s.regs 0 = 0) :
    ∃ s1, step s = .ok (true, s1) ∧ Prog2Loaded s1 ∧ s1.PC = 12 ∧ s1.regs 0 = 0 ∧
      s1.regs 8 = s.regs 8 ∧ s1.regs 9 = (s.regs 9 + s.regs 8) % 2 ^ 32 := by
  have hf : fetch_word_be s s.PC = .ok 0x01284820 := by rw [hpc]; exact hL.2.2.1 2 (by decide)
  have hs := step_add s 0x01284820 hL.1 (by rw [hpc]; decide) hf (by decide) (by decide)
  have e1 : rd 0x01284820 = 9 := by decide
  have e2 : rs 0x01284820 = 9 := by decide
  have e3 : rt 0x01284820 = 8 := by decide
  refine ⟨_, hs, Prog2Loaded_congr s _ rfl hL, ?_, ?_, ?_, ?_⟩
  · dsimp only; rw [hpc]
  · dsimp only; exact writeBack_zero _ _ _ _
  · dsimp only
    rw [e1]
    exact writeBack_other s.regs h0 _ _ _ 8 (by decide)
  · dsimp only
    rw [e1, e2, e3, writeBack_same _ _ _ (by decide)]

/-- Address 12: `ADDI $8,$8,-1`. -/
theorem prog2_step3 (s : CPU) (hL : Prog2Loaded s) (hpc : s.PC = 12) (h0 : s.regs 0 = 0)
    (n : Nat) (h8 : s.regs 8 = n + 1) (hn : n + 1 < 2 ^ 32) :
    ∃ s1, step s = .ok (true, s1) ∧ Prog2Loaded s1 ∧ s1.PC = 16 ∧ s1.regs 0 = 0 ∧
      s1.regs 8 = n ∧ s1.regs 9 = s.regs 9 := by
  have hf : fetch_word_be s s.PC = .ok 0x2108FFFF := by rw [hpc]; exact hL.2.2.1 3 (by decide)
  have hs := step_addi s 0x2108FFFF hL.1 (by rw [hpc]; decide) hf (by decide)
  have e1 : rt 0x2108FFFF = 8 := by decide
  have e2 : rs 0x2108FFFF = 8 := by decide
  have e3 : signext16 (imm16 0x2108FFFF) = -1 := by decide
  refine ⟨_, hs, Prog2Loaded_congr s _ rfl hL, ?_, ?_, ?_, ?_⟩
  · dsimp only; rw [hpc]
  · dsimp only; exact writeBack_zero _ _ _ _
  · dsimp only
    rw [e1, e2, e3, h8, writeBack_same _ _ _ (by decide)]
    have h := toUInt32_add_int (n + 1) (-1)
    omega
  · dsimp only
    rw [e1]
    exact writeBack_other s.regs h0 _ _ _ 9 (by decide)

/-- Address 16: `BEQ $8,$0,+1`. -/
theorem prog2_step4 (s : CPU) (hL : Prog2Loaded s) (hpc : s.PC = 16) (h0 : s.regs 0 = 0) :
    ∃ s1, step s = .ok (true, s1) ∧ Prog2Loaded s1 ∧
      s1.PC = (if s.regs 8 = 0 then 24 else 20) ∧ s1.regs 0 = 0 ∧
      s1.regs 8 = s.regs 8 ∧ s1.regs 9 = s.regs 9 := by
  have hf : fetch_word_be s s.PC = .ok 0x11000001 := by rw [hpc]; exact hL.2.2.1 4 (by decide)
  have e1 : rs 0x11000001 = 8 := by decide
  have e2 : rt 0x11000001 = 0 := by decide
  by_cases h8 : s.regs 8 = 0
  · have hs := step_beq_taken s 0x11000001 hL.1 (by rw [hpc]; decide) hf (by decide)
      (by rw [e1, e2, h8, h0])
    refine ⟨_, hs, Prog2Loaded_congr s _ rfl hL, ?_, ?_, ?_, ?_⟩
    · dsimp only
      rw [hpc, if_pos h8]
      decide
    · dsimp only; exact writeBack_zero _ _ _ _
    · dsimp only; exact writeBack_idle s.regs h0 _ _ 8
    · dsimp only; exact writeBack_idle s.regs h0 _ _ 9
  · have hs := step_beq_not_taken s 0x11000001 hL.1 (by rw [hpc]; decide) hf (by decide)
      (by rw [e1, e2, h0]; exact h8)
    refine ⟨_, hs, Prog2Loaded_congr s _ rfl hL, ?_, ?_, ?_, ?_⟩
    · dsimp only
      rw [hpc, if_neg h8]
    · dsimp only; exact writeBack_zero _ _ _ _
    · dsimp only; exact writeBack_idle s.regs h0 _ _ 8
    · dsimp only; exact writeBack_idle s.regs h0 _ _ 9

/-- Address 20: `BEQ $0,$0,-4`. -/
theorem prog2_step5 (s : CPU) (hL : Prog2Loaded s) (hpc : s.PC = 20) (h0 : s.regs 0 = 0) :
    ∃ s1, step s = .ok (true, s1) ∧ Prog2Loaded s1 ∧ s1.PC = 8 ∧ s1.regs 0 = 0 ∧
      s1.regs 8 = s.regs 8 ∧ s1.regs 9 = s.regs 9 := by
  have hf : fetch_word_be s s.PC = .ok 0x1000FFFC := by rw [hpc]; exact hL.2.2.1 5 (by decide)
  have hs := step_beq_taken s 0x1000FFFC hL.1 (by rw [hpc]; decide) hf (by decide) rfl
  refine ⟨_, hs, Prog2Loaded_congr s _ rfl hL, ?_, ?_, ?_, ?_⟩
  · dsimp only
    rw [hpc]
    decide
  · dsimp only; exact writeBack_zero _ _ _ _
  · dsimp only; exact writeBack_idle s.regs h0 _ _ 8
  · dsimp only; exact writeBack_idle s.regs h0 _ _ 9

/-! ## Running prog2 to the halt -/

/-- The loop at addresses 8..20, entered with `n + 1` in register 8 and `b` in register 9,
leaves at address 24 after `4 * n + 3` steps with `b + sumDown (n + 1)` (mod 2^32) in
register 9. -/
theorem prog2_loop (n : Nat) : ∀ (s : CPU) (b : Nat), Prog2Loaded s → s.PC = 8 →
    s.regs 0 = 0 → s.regs 8 = n + 1 → s.regs 9 = b → n + 1 < 2 ^ 32 → ∀ fuel,
    ∃ s1, run_until_halt (4 * n + 3 + fuel) s = run_until_halt fuel s1 ∧ Prog2Loaded s1 ∧
      s1.PC = 24 ∧ s1.regs 0 = 0 ∧ s1.regs 9 = (b + sumDown (n + 1)) % 2 ^ 32 := by
  induction n with
  | zero =>
    intro s b hL hpc h0 h8 h9 hn fuel
    obtain ⟨s1, hs1, hL1, hpc1, h01, h81, h91⟩ := prog2_step2 s hL hpc h0
    obtain ⟨s2, hs2, hL2, hpc2, h02, h82, h92⟩ :=
      prog2_step3 s1 hL1 hpc1 h01 0 (by rw [h81, h8]) (by decide)
    obtain ⟨s3, hs3, hL3, hpc3, h03, _, h93⟩ := prog2_step4 s2 hL2 hpc2 h02
    refine ⟨s3, ?_, hL3, by rw [hpc3, if_pos h82], h03, ?_⟩
    · have e : 4 * 0 + 3 + fuel = fuel + 1 + 1 + 1 := by omega
      rw [e, run_until_halt_step _ _ _ hs1, run_until_halt_step _ _ _ hs2,
        run_until_halt_step _ _ _ hs3]
    · rw [h93, h92, h91, h9, h8]
      simp [sumDown]
  | succ n ih =>
    intro s b hL hpc h0 h8 h9 hn fuel
    obtain ⟨s1, hs1, hL1, hpc1, h01, h81, h91⟩ := prog2_step2 s hL hpc h0
    obtain ⟨s2, hs2, hL2, hpc2, h02, h82, h92⟩ :=
      prog2_step3 s1 hL1 hpc1 h01 (n + 1) (by rw [h81, h8]) hn
    obtain ⟨s3, hs3, hL3, hpc3, h03, h83, h93⟩ := prog2_step4 s2 hL2 hpc2 h02
    have hne : s2.regs 8 ≠ 0 := by rw [h82]; omega
    rw [if_neg hne] at hpc3
    obtain ⟨s4, hs4, hL4, hpc4, h04, h84, h94⟩ := prog2_step5 s3 hL3 hpc3 h03
    obtain ⟨s5, hrun, hL5, hpc5, h05, h95⟩ :=
      ih s4 (s4.regs 9) hL4 hpc4 h04 (by rw [h84, h83, h82]) rfl (by omega) fuel
    refine ⟨s5, ?_, hL5, hpc5, h05, ?_⟩
    · have e : 4 * (n + 1) + 3 + fuel = (4 * n + 3 + fuel) + 1 + 1 + 1 + 1 := by omega
      rw [e, run_until_halt_step _ _ _ hs1, run_until_halt_step _ _ _ hs2,
        run_until_halt_step _ _ _ hs3, run_until_halt_step _ _ _ hs4]
      exact hrun
    · rw [h95, h94, h93, h92, h91, h9, h8]
      have e : sumDown (n + 1 + 1) = (n + 1 + 1) + sumDown (n + 1) := rfl
      rw [e]
      omega

/-- Address 24: `SW $9,0($0)` stores register 9 at address 0. -/
theorem prog2_step6 (s : CPU) (hL : Prog2Loaded s) (hpc : s.PC = 24) (h0 : s.regs 0 = 0) :
    ∃ s1, step s = .ok (true, s1) ∧ s1.mem = memStoreLE s.mem 0 (s.regs 9) ∧ s1.PC = 28 ∧
      s1.regs 9 = s.regs 9 := by
  have hf : fetch_word_be s s.PC = .ok 0xAC090000 := by rw [hpc]; exact hL.2.2.1 6 (by decide)
  have e1 : rt 0xAC090000 = 9 := by decide
  have ea : effAddr s.regs 0xAC090000 = 0 := by
    have e2 : rs 0xAC090000 = 0 := by decide
    unfold effAddr
    rw [e2, h0]
    decide
  have hs := step_sw s 0xAC090000 hL.1 (by rw [hpc]; decide) hf (by decide)
    (by rw [ea]; decide)
  refine ⟨_, hs, ?_, ?_, ?_⟩
  · dsimp only; rw [ea, e1]
  · dsimp only; rw [hpc]
  · dsimp only; simp [writeBack]

/-- From an aligned `PC >= 28` with zeroed memory from address 28 on, every instruction
is a no-op; `PC` slides to 4096, where the fetch guard halts the machine. -/
theorem slide_to_halt (k : Nat) : ∀ (s : CPU), s.mem.length = MEMORY_SIZE →
    (∀ b ∈ s.mem, b < 256) → (∀ j, 28 ≤ j → j < MEMORY_SIZE → s.mem[j]? = some 0) →
    28 ≤ s.PC → s.PC + 4 * k = MEMORY_SIZE →
    ∃ s1, run_until_halt (k + 1) s = .ok (some s1) ∧ s1.mem = s.mem ∧
      s1.regs 9 = s.regs 9 := by
  have h4 : MEMORY_SIZE = 4096 := rfl
  induction k with
  | zero =>
    intro s hl _ _ _ hpc
    refine ⟨s, run_until_halt_halt _ _ _ (step_guard_halt s ?_), rfl, rfl⟩
    have e : s.PC = 4096 := by omega
    rw [hl, e]
    decide
  | succ k ih =>
    intro s hl hb hz h28 hpc
    have hz' : ∀ j, 28 ≤ j → j < MEMORY_SIZE → s.mem.getD j 0 = 0 := by
      intro j h1 h2
      exact getD_of_getElem? _ _ _ (hz j h1 h2)
    have hf : fetch_word_be s s.PC = .ok 0 := by
      rw [fetch_word_be_eq s s.PC hl hb (by omega), hz' _ (by omega) (by omega),
        hz' _ (by omega) (by omega), hz' _ (by omega) (by omega), hz' _ (by omega) (by omega)]
      rfl
    have hs := step_unimpl s 0 hl (by omega) hf (Or.inl (by decide))
    obtain ⟨s1, hrun, hm, hr⟩ :=
      ih { mem := s.mem, regs := writeBack s.regs false 0 0, PC := s.PC + 4,
           cycle := (s.cycle + 1) % 2 ^ 64 } hl hb hz (by dsimp only; omega)
        (by dsimp only; omega)
    refine ⟨s1, ?_, hm, ?_⟩
    · rw [run_until_halt_step _ _ _ hs]
      exact hrun
    · rw [hr]
      rfl

/-- Claim C1. End-to-end: starting from the freshly constructed machine, the loader stores
the seven words of `prog2` at addresses 0, 4, ..., 24; calling `step` again and again then
reaches the first Halt after 1039 continuing steps (the 1040th call returns `false`), and
in the final state register 9 holds 15 and `read_word_le(0)` returns 15. -/
theorem prog2_end_to_end :
    ∃ c sF, load_words CPU.new 0 prog2 = .ok c ∧ run_until_halt 1040 c = .ok (some sF) ∧
      sF.regs 9 = 15 ∧ read_word_le sF 0 = .ok 15 := by
  obtain ⟨c, hload, hL, hpc, h0⟩ := prog2_loaded
  obtain ⟨s1, hs1, hL1, hpc1, h01, h81⟩ := prog2_step0 c hL hpc h0
  obtain ⟨s2, hs2, hL2, hpc2, h02, h82, h92⟩ := prog2_step1 s1 hL1 hpc1 h01
  obtain ⟨s3, hrun3, hL3, hpc3, h03, h93⟩ :=
    prog2_loop 4 s2 0 hL2 hpc2 h02 (by rw [h82, h81]) h92 (by decide) 1019
  have h15 : s3.regs 9 = 15 := by rw [h93]; decide
  obtain ⟨s4, hs4, hm4, hpc4, h94⟩ := prog2_step6 s3 hL3 hpc3 h03
  have hl4 : s4.mem.length = MEMORY_SIZE := by rw [hm4, memStoreLE_length]; exact hL3.1
  have hb4 : ∀ b ∈ s4.mem, b < 256 := by rw [hm4]; exact memStoreLE_byte _ _ _ hL3.2.1
  have hz4 : ∀ j, 28 ≤ j → j < MEMORY_SIZE → s4.mem[j]? = some 0 := by
    intro j h1 h2
    rw [hm4, memStoreLE_frame _ _ _ _ (Or.inr (by omega))]
    exact hL3.2.2.2 j h1 h2
  obtain ⟨sF, hrunF, hmF, h9F⟩ :=
    slide_to_halt 1017 s4 hl4 hb4 hz4 (by omega) (by rw [hpc4]; decide)
  refine ⟨c, sF, hload, ?_, by rw [h9F, h94, h15], ?_⟩
  · have e : (1040 : Nat) = (4 * 4 + 3 + 1019) + 1 + 1 := by decide
    rw [e, run_until_halt_step _ _ _ hs1, run_until_halt_step _ _ _ hs2, hrun3,
      run_until_halt_step 1018 _ _ hs4]
    exact hrunF
  · rw [read_word_le_congr sF { s3 with mem := memStoreLE s3.mem 0 (s3.regs 9) }
      (by rw [hmF, hm4])]
    rw [read_after_write s3 0 (s3.regs 9) hL3.1 hL3.2.1 (by decide) (by omega), h15]
    rfl

/-! ## ADDI, SW and LW -/

/-- An address given as `(regs[rs] + signext16(imm16)) mod 2^32` is the local `addr` of the
`LW`/`SW` branches. -/
theorem effAddr_of_spec (regs : Nat → Nat) (IR a : Nat)
    (ha : ((a : Nat) : Int) = ((regs (rs IR) : Int) + signext16 (imm16 IR)) % 2 ^ 32) :
    effAddr regs IR = a := by
  have h := effAddr_spec regs IR
  omega

/-- Claim C11. ADDI semantics: for every machine state with register 0 equal to 0 whose fetch
succeeds with a word of opcode 0x08, `step` returns Continue; if `rt != 0`, register `rt`
afterwards holds `(old regs[rs] + sign_extend16(imm16)) mod 2^32`, so an immediate `0xFFFF`
subtracts 1; every other register and every memory byte is unchanged and the new PC is the
old PC + 4. -/
theorem addi_semantics (s : CPU) (IR : Nat) (hwf : s.WF) (h0 : s.regs 0 = 0)
    (hf : fetch_word_be s s.PC = .ok IR) (hop : opcode IR = 0x08) :
    ∃ s1, step s = .ok (true, s1) ∧
      (rt IR ≠ 0 → ((s1.regs (rt IR) : Nat) : Int)
        = ((s.regs (rs IR) : Int) + signext16 (imm16 IR)) % 2 ^ 32) ∧
      (rt IR ≠ 0 → imm16 IR = 0xFFFF →
        ((s1.regs (rt IR) : Nat) : Int) = ((s.regs (rs IR) : Int) - 1) % 2 ^ 32) ∧
      (∀ r, r ≠ rt IR → s1.regs r = s.regs r) ∧ s1.mem = s.mem ∧ s1.PC = s.PC + 4 := by
  have hpc := fetch_ok_bound s hwf IR hf
  have hval : rt IR ≠ 0 → ((writeBack s.regs true (rt IR)
      (toUInt32 (toInt32 (s.regs (rs IR)) + signext16 (imm16 IR))) (rt IR) : Nat) : Int)
        = ((s.regs (rs IR) : Int) + signext16 (imm16 IR)) % 2 ^ 32 := by
    intro hrt
    rw [writeBack_same s.regs _ _ hrt]
    exact toUInt32_add_int _ _
  refine ⟨_, step_addi s IR hwf.mem_size hpc hf hop, hval, ?_, ?_, rfl, rfl⟩
  · intro hrt himm
    have h := hval hrt
    have hm1 : signext16 0xFFFF = -1 := by decide
    rw [himm, hm1] at h
    dsimp only
    rw [himm, hm1, h]
    rfl
  · intro r hr
    exact writeBack_other s.regs h0 _ _ _ r hr

/-- Instance of `addi_semantics` on a concrete machine, with its hypotheses discharged. -/
theorem addi_semantics_witness :
    (CPU.sample 0x2108FFFF 5 0).WF ∧ (CPU.sample 0x2108FFFF 5 0).regs 0 = 0 ∧
    fetch_word_be (CPU.sample 0x2108FFFF 5 0) (CPU.sample 0x2108FFFF 5 0).PC = .ok 0x2108FFFF ∧
    opcode 0x2108FFFF = 0x08 ∧ rt 0x2108FFFF = 8 ∧ rs 0x2108FFFF = 8 ∧
    imm16 0x2108FFFF = 0xFFFF ∧
    ∃ s1, step (CPU.sample 0x2108FFFF 5 0) = .ok (true, s1) ∧ s1.regs 8 = 4 := by
  have hwf := CPU.sample_WF 0x2108FFFF 5 0 (by norm_num) (by norm_num)
  have hf := CPU.sample_fetch 0x2108FFFF 5 0 (by norm_num)
  obtain ⟨s1, hs, _, hsub, _, _, _⟩ :=
    addi_semantics (CPU.sample 0x2108FFFF 5 0) 0x2108FFFF hwf rfl hf (by decide)
  have h := hsub (by decide) (by decide)
  have e1 : rt 0x2108FFFF = 8 := by decide
  have e2 : (CPU.sample 0x2108FFFF 5 0).regs (rs 0x2108FFFF) = 5 := by decide
  rw [e1, e2] at h
  exact ⟨hwf, rfl, hf, by decide, by decide, by decide, by decide, s1, hs, by omega⟩


/-- Claim C17. SW success path: for every machine state with register 0 equal to 0 whose fetch
succeeds with an `SW` (opcode 0x2B) whose effective address
`a = (regs[rs] + sign_extend16(imm16)) mod 2^32` satisfies `a + 3 < 4096`, `step` returns
Continue, the bytes at `a..a+3` afterwards are the little-endian bytes of the pre-step value
of `regs[rt]` (so `read_word_le(a)` returns its signed reinterpretation), every memory byte
outside `a..a+3` and every register is unchanged, and the new PC is the old PC + 4. -/
theorem sw_success (s : CPU) (IR a : Nat) (hwf : s.WF) (h0 : s.regs 0 = 0)
    (hf : fetch_word_be s s.PC = .ok IR) (hop : opcode IR = 0x2B)
    (ha : ((a : Nat) : Int) = ((s.regs (rs IR) : Int) + signext16 (imm16 IR)) % 2 ^ 32)
    (hin : a + 3 < 4096) :
    ∃ s1, step s = .ok (true, s1) ∧
      (∀ i, i < 4 → s1.mem[a + i]? = some ((s.regs (rt IR) >>> (8 * i)) &&& 0xFF)) ∧
      read_word_le s1 a = .ok (if s.regs (rt IR) < 2 ^ 31 then (s.regs (rt IR) : Int)
        else (s.regs (rt IR) : Int) - 2 ^ 32) ∧
      (∀ j, j < a ∨ a + 3 < j → s1.mem[j]? = s.mem[j]?) ∧ s1.mem.length = s.mem.length ∧
      (∀ r, s1.regs r = s.regs r) ∧ s1.PC = s.PC + 4 := by
  have hpc := fetch_ok_bound s hwf IR hf
  have hea := effAddr_of_spec s.regs IR a ha
  have hs := step_sw s IR hwf.mem_size hpc hf hop (by rw [hea]; exact hin)
  rw [hea] at hs
  have hm : a + 3 < s.mem.length := by rw [hwf.mem_size]; exact hin
  obtain ⟨l0, l1, l2, l3⟩ := memStoreLE_bytes s.mem a (s.regs (rt IR)) hm
  refine ⟨_, hs, ?_, ?_, ?_, ?_, ?_, rfl⟩
  · intro i hi
    have : i = 0 ∨ i = 1 ∨ i = 2 ∨ i = 3 := by omega
    rcases this with rfl | rfl | rfl | rfl <;> simp only [and_0xFF] <;> assumption
  · refine (read_word_le_congr _ { s with mem := memStoreLE s.mem a (s.regs (rt IR)) }
      rfl a).trans ?_
    rw [read_after_write s a _ hwf.mem_size hwf.mem_byte hin (hwf.regs_u32 _),
      toInt32_of_lt _ (hwf.regs_u32 _)]
  · intro j hj
    exact memStoreLE_frame s.mem a _ j hj
  · exact memStoreLE_length _ _ _
  · intro r
    exact writeBack_idle s.regs h0 _ _ r

/-- Instance of `sw_success` on a concrete machine, with its hypotheses discharged. -/
theorem sw_success_witness :
    (CPU.sample 0xAD090010 100 0xDEADBEEF).WF ∧ (CPU.sample 0xAD090010 100 0xDEADBEEF).regs 0 = 0 ∧
    fetch_word_be (CPU.sample 0xAD090010 100 0xDEADBEEF) (CPU.sample 0xAD090010 100 0xDEADBEEF).PC
      = .ok 0xAD090010 ∧
    opcode 0xAD090010 = 0x2B ∧
    ((116 : Nat) : Int) = (((CPU.sample 0xAD090010 100 0xDEADBEEF).regs (rs 0xAD090010) : Int)
      + signext16 (imm16 0xAD090010)) % 2 ^ 32 ∧
    116 + 3 < 4096 ∧
    ∃ s1, step (CPU.sample 0xAD090010 100 0xDEADBEEF) = .ok (true, s1) ∧
      read_word_le s1 116 = .ok (0xDEADBEEF - 2 ^ 32) := by
  have hwf := CPU.sample_WF 0xAD090010 100 0xDEADBEEF (by norm_num) (by norm_num)
  have hf := CPU.sample_fetch 0xAD090010 100 0xDEADBEEF (by norm_num)
  have ha : ((116 : Nat) : Int)
      = (((CPU.sample 0xAD090010 100 0xDEADBEEF).regs (rs 0xAD090010) : Int)
        + signext16 (imm16 0xAD090010)) % 2 ^ 32 := by decide
  obtain ⟨s1, hs, _, hrd, _⟩ :=
    sw_success (CPU.sample 0xAD090010 100 0xDEADBEEF) 0xAD090010 116 hwf rfl hf (by decide) ha
      (by decide)
  exact ⟨hwf, rfl, hf, by decide, ha, by decide, s1, hs, hrd⟩

/-- Claim C18. LW success path: for every machine state with register 0 equal to 0 whose fetch
succeeds with an `LW` (opcode 0x23) whose effective address
`a = (regs[rs] + sign_extend16(imm16)) mod 2^32` satisfies `a + 3 < 4096`, `step` returns
Continue; if `rt != 0`, register `rt` afterwards holds
`mem[a] + 2^8*mem[a+1] + 2^16*mem[a+2] + 2^24*mem[a+3]`; every other register and every
memory byte is unchanged, and the new PC is the old PC + 4. -/
theorem lw_success (s : CPU) (IR a : Nat) (hwf : s.WF) (h0 : s.regs 0 = 0)
    (hf : fetch_word_be s s.PC = .ok IR) (hop : opcode IR = 0x23)
    (ha : ((a : Nat) : Int) = ((s.regs (rs IR) : Int) + signext16 (imm16 IR)) % 2 ^ 32)
    (hin : a + 3 < 4096) :
    ∃ s1, step s = .ok (true, s1) ∧
      (rt IR ≠ 0 → s1.regs (rt IR) = s.mem.getD a 0 + 2 ^ 8 * s.mem.getD (a + 1) 0
        + 2 ^ 16 * s.mem.getD (a + 2) 0 + 2 ^ 24 * s.mem.getD (a + 3) 0) ∧
      (∀ r, r ≠ rt IR → s1.regs r = s.regs r) ∧ s1.mem = s.mem ∧ s1.PC = s.PC + 4 := by
  have hpc := fetch_ok_bound s hwf IR hf
  have hea := effAddr_of_spec s.regs IR a ha
  have hs := step_lw s IR hwf.mem_size hwf.mem_byte hpc hf hop (by rw [hea]; exact hin)
  rw [hea] at hs
  refine ⟨_, hs, ?_, ?_, rfl, rfl⟩
  · intro hrt
    dsimp only
    rw [writeBack_same s.regs _ _ hrt]
    have b0 := getD_lt_256 s.mem hwf.mem_byte a
    have b1 := getD_lt_256 s.mem hwf.mem_byte (a + 1)
    have b2 := getD_lt_256 s.mem hwf.mem_byte (a + 2)
    have b3 := getD_lt_256 s.mem hwf.mem_byte (a + 3)
    omega
  · intro r hr
    exact writeBack_other s.regs h0 _ _ _ r hr

/-- Instance of `lw_success` on a concrete machine, with its hypotheses discharged. -/
theorem lw_success_witness :
    (CPU.sample 0x8D090000 0 7).WF ∧ (CPU.sample 0x8D090000 0 7).regs 0 = 0 ∧
    fetch_word_be (CPU.sample 0x8D090000 0 7) (CPU.sample 0x8D090000 0 7).PC = .ok 0x8D090000 ∧
    opcode 0x8D090000 = 0x23 ∧
    ((0 : Nat) : Int) = (((CPU.sample 0x8D090000 0 7).regs (rs 0x8D090000) : Int)
      + signext16 (imm16 0x8D090000)) % 2 ^ 32 ∧
    0 + 3 < 4096 ∧ rt 0x8D090000 = 9 ∧
    ∃ s1, step (CPU.sample 0x8D090000 0 7) = .ok (true, s1) ∧ s1.regs 9 = 0x098D := by
  have hwf := CPU.sample_WF 0x8D090000 0 7 (by norm_num) (by norm_num)
  have hf := CPU.sample_fetch 0x8D090000 0 7 (by norm_num)
  have ha : ((0 : Nat) : Int)
      = (((CPU.sample 0x8D090000 0 7).regs (rs 0x8D090000) : Int)
        + signext16 (imm16 0x8D090000)) % 2 ^ 32 := by decide
  obtain ⟨s1, hs, hval, _⟩ :=
    lw_success (CPU.sample 0x8D090000 0 7) 0x8D090000 0 hwf rfl hf (by decide) ha (by decide)
  have h := hval (by decide)
  have e1 : rt 0x8D090000 = 9 := by decide
  obtain ⟨m0, m1, m2, m3⟩ := memStoreBE_bytes CPU.new.mem 0 0x8D090000
    (by rw [CPU.new_WF.mem_size]; decide)
  have g0 : (CPU.sample 0x8D090000 0 7).mem.getD 0 0 = 0x8D := getD_of_getElem? _ _ _ m0
  have g1 : (CPU.sample 0x8D090000 0 7).mem.getD (0 + 1) 0 = 0x09 := getD_of_getElem? _ _ _ m1
  have g2 : (CPU.sample 0x8D090000 0 7).mem.getD (0 + 2) 0 = 0 := getD_of_getElem? _ _ _ m2
  have g3 : (CPU.sample 0x8D090000 0 7).mem.getD (0 + 3) 0 = 0 := getD_of_getElem? _ _ _ m3
  rw [e1, g0, g1, g2, g3] at h
  exact ⟨hwf, rfl, hf, by decide, ha, by decide, e1, s1, hs, h⟩

/-! ## Sign extension -/

theorem and_two_pow_eq (v k : Nat) : v &&& 2 ^ k = if v.testBit k then 2 ^ k else 0 := by
  apply Nat.eq_of_testBit_eq
  intro i
  rw [Nat.testBit_and, Nat.testBit_two_pow]
  by_cases hki : k = i
  · subst hki
    cases h : v.testBit k <;> simp [h]
  · cases h : v.testBit k <;> simp [hki, Nat.testBit_two_pow]

theorem testBit_15_iff (v : Nat) (hv : v < 65536) : v.testBit 15 = true ↔ 0x8000 ≤ v := by
  rw [Nat.testBit_to_div_mod]
  simp only [decide_eq_true_eq]
  omega

theorem and_0x8000_ne_zero_iff (v : Nat) (hv : v < 65536) : v &&& 0x8000 ≠ 0 ↔ 0x8000 ≤ v := by
  have h := and_two_pow_eq v 15
  have e : (0x8000 : Nat) = 2 ^ 15 := by norm_num
  rw [e, h, ← e, ← testBit_15_iff v hv]
  cases v.testBit 15 <;> simp

theorem or_0xFFFF0000 (v : Nat) (hv : v < 65536) : 0xFFFF0000 ||| v = 0xFFFF0000 + v := by
  have h := or_eq_add_of_lt 16 0xFFFF v (by norm_num; exact hv)
  norm_num at h
  exact h

/-- Value of `signext16` on a 16-bit operand. -/
theorem signext16_eq (v : Nat) (hv : v < 65536) :
    signext16 v = if v < 0x8000 then (v : Int) else (v : Int) - 65536 := by
  unfold signext16
  by_cases h : 0x8000 ≤ v
  · rw [if_pos ((and_0x8000_ne_zero_iff v hv).mpr h), if_neg (by omega), or_0xFFFF0000 v hv]
    unfold toInt32
    split <;> omega
  · rw [if_neg (fun hc => h ((and_0x8000_ne_zero_iff v hv).mp hc)), if_pos (by omega)]

/-- Claim C15. Sign extension matches two's complement: for every 16-bit value `v`,
`signext16(v)` equals `v` when `v < 0x8000` and `v - 65536` when `v >= 0x8000`;
equivalently its 32-bit pattern has the low 16 bits equal to `v` and the upper 16 bits all
equal to bit 15 of `v`. -/
theorem signext16_twos_complement (v : Nat) (hv : v < 65536) :
    signext16 v = (if v < 0x8000 then (v : Int) else (v : Int) - 65536) ∧
    toUInt32 (signext16 v) % 65536 = v ∧
    toUInt32 (signext16 v) / 65536 = (if v.testBit 15 then 0xFFFF else 0) := by
  have h := signext16_eq v hv
  have ht := testBit_15_iff v hv
  refine ⟨h, ?_, ?_⟩
  · rw [h]
    unfold toUInt32
    split <;> omega
  · rw [h]
    unfold toUInt32
    by_cases hb : 0x8000 ≤ v
    · rw [if_neg (by omega), if_pos (ht.mpr hb)]
      omega
    · rw [if_pos (by omega), if_neg (fun hc => hb (ht.mp hc))]
      omega

/-- Instance of `signext16_twos_complement` at `0xFFFC`, with its hypothesis discharged. -/
theorem signext16_twos_complement_witness :
    0xFFFC < 65536 ∧ signext16 0xFFFC = -4 ∧ toUInt32 (signext16 0xFFFC) % 65536 = 0xFFFC ∧
    toUInt32 (signext16 0xFFFC) / 65536 = 0xFFFF := by
  obtain ⟨h1, h2, h3⟩ := signext16_twos_complement 0xFFFC (by norm_num)
  refine ⟨by norm_num, ?_, h2, ?_⟩
  · rw [h1]; norm_num
  · rw [h3]; decide

/-! ## Aligned fetch and program loading -/

theorem getElem?_eq_some_getD (m : List Nat) (j : Nat) (h : j < m.length) :
    m[j]? = some (m.getD j 0) := by
  simp [List.getElem?_eq_getElem h]

/-- Once the fetch guard is passed and the fetch has returned `IR`, `step` is the rest of
the cycle on `IR`. -/
theorem step_eq_after_fetch (s : CPU) (IR : Nat) (hg : ¬ (u32 (s.PC + 3) ≥ s.mem.length))
    (hf : fetch_word_be s s.PC = .ok IR) : step s = step_after_fetch s IR := by
  unfold step step_after_fetch
  rw [if_neg hg, hf]
  rfl

/-- Claim C19. Fetch safety under alignment: for every machine state whose PC is a multiple
of 4, `step` passes the fetch guard if and only if `PC <= 4092` (it returns at the guard,
with the state untouched, exactly when `PC > 4092`), and in that case the four byte indices
`PC..PC+3` read by the fetch are all below 4096, `fetch_word_be` does not take its
out-of-range branch, and `step` carries on with the instruction word
`mem[PC]*2^24 + mem[PC+1]*2^16 + mem[PC+2]*2^8 + mem[PC+3]`. -/
theorem fetch_safe_when_aligned (s : CPU) (hwf : s.WF) (hal : s.PC % 4 = 0) :
    (¬ (u32 (s.PC + 3) ≥ s.mem.length) ↔ s.PC ≤ 4092) ∧
    (step s = .ok (false, s) ↔ 4092 < s.PC) ∧
    (s.PC ≤ 4092 →
      (∀ k, k < 4 → u32 (s.PC + k) = s.PC + k ∧ s.PC + k < s.mem.length) ∧
      fetch_word_be s s.PC = .ok (s.mem.getD s.PC 0 * 2 ^ 24 + s.mem.getD (s.PC + 1) 0 * 2 ^ 16
        + s.mem.getD (s.PC + 2) 0 * 2 ^ 8 + s.mem.getD (s.PC + 3) 0) ∧
      step s = step_after_fetch s (s.mem.getD s.PC 0 * 2 ^ 24 + s.mem.getD (s.PC + 1) 0 * 2 ^ 16
        + s.mem.getD (s.PC + 2) 0 * 2 ^ 8 + s.mem.getD (s.PC + 3) 0)) := by
  have h4 : MEMORY_SIZE = 4096 := rfl
  have hlen := hwf.mem_size
  have hpc := hwf.PC_u32
  have hguard : ¬ (u32 (s.PC + 3) ≥ s.mem.length) ↔ s.PC ≤ 4092 := by
    rw [hlen]
    unfold u32
    omega
  refine ⟨hguard, ⟨?_, ?_⟩, ?_⟩
  · intro hs
    by_contra hle
    rcases step_halt_inv s s hs with ⟨hg, _⟩ | ⟨_, _, _, _, h⟩
    · exact hguard.mpr (by omega) hg
    · have hp : s.PC = u32 (s.PC + 4) := congrArg CPU.PC h
      unfold u32 at hp
      omega
  · intro hgt
    refine step_guard_halt s ?_
    by_contra hg
    have := hguard.mp hg
    omega
  · intro hle
    have hf := fetch_word_be_eq s s.PC hlen hwf.mem_byte (by omega)
    refine ⟨?_, hf, step_eq_after_fetch s _ (hguard.mpr hle) hf⟩
    intro k hk
    rw [hlen]
    unfold u32
    omega

/-- Instance of `fetch_safe_when_aligned` on a concrete machine holding `ADD $10,$8,$9` at
address 0. -/
theorem fetch_safe_when_aligned_witness :
    (CPU.sample 0x01095020 7 9).WF ∧ (CPU.sample 0x01095020 7 9).PC % 4 = 0 ∧
    (CPU.sample 0x01095020 7 9).PC ≤ 4092 ∧
    fetch_word_be (CPU.sample 0x01095020 7 9) (CPU.sample 0x01095020 7 9).PC = .ok 0x01095020 ∧
    step (CPU.sample 0x01095020 7 9) = step_after_fetch (CPU.sample 0x01095020 7 9) 0x01095020 ∧
    step (CPU.sample 0x01095020 7 9) ≠ .ok (false, CPU.sample 0x01095020 7 9) := by
  have hwf := CPU.sample_WF 0x01095020 7 9 (by norm_num) (by norm_num)
  have hf := CPU.sample_fetch 0x01095020 7 9 (by norm_num)
  obtain ⟨_, hhalt, hin⟩ := fetch_safe_when_aligned (CPU.sample 0x01095020 7 9) hwf rfl
  obtain ⟨_, hf2, hst⟩ := hin (by decide)
  rw [hf] at hf2
  injection hf2 with hw
  rw [← hw] at hst
  refine ⟨hwf, rfl, by decide, hf, hst, ?_⟩
  intro hc
  have := hhalt.mp hc
  exact absurd this (by decide)

/-- Claim C14. Program loading: for every sequence of `n` 32-bit words with `4n <= 4096`, the
loader loop (`store_word_be(4i, words[i])` for `i = 0..n-1`, starting from the zeroed memory
of a fresh machine) succeeds, after it `fetch_word_be(4i)` returns `words[i]` for every
`i < n`, the bytes of word `i` occupy addresses `4i..4i+3` most-significant byte first, and
every byte at an address `>= 4n` is still 0. -/
theorem program_loading (ws : List Nat) (hn : 4 * ws.length ≤ 4096)
    (hw : ∀ w ∈ ws, w < 2 ^ 32) :
    ∃ c, load_words CPU.new 0 ws = .ok c ∧
      (∀ i, i < ws.length → fetch_word_be c (4 * i) = .ok (ws.getD i 0)) ∧
      (∀ i k, i < ws.length → k < 4 →
        c.mem[4 * i + k]? = some ((ws.getD i 0 >>> (24 - 8 * k)) &&& 0xFF)) ∧
      (∀ j, 4 * ws.length ≤ j → j < 4096 → c.mem[j]? = some 0) := by
  have h4 : MEMORY_SIZE = 4096 := rfl
  obtain ⟨c, hload, hl, hb, _, _, _, hfetch, hframe⟩ :=
    load_words_spec ws CPU.new 0 CPU.new_WF.mem_size CPU.new_WF.mem_byte (by omega) hw
  have hf : ∀ i, i < ws.length → fetch_word_be c (4 * i) = .ok (ws.getD i 0) := by
    intro i hi
    have h := hfetch i hi
    rw [Nat.zero_add] at h
    exact h
  refine ⟨c, hload, hf, ?_, ?_⟩
  · intro i k hi hk
    have h := hf i hi
    rw [fetch_word_be_eq c (4 * i) hl hb (by omega)] at h
    injection h with h
    have b0 := getD_lt_256 c.mem hb (4 * i)
    have b1 := getD_lt_256 c.mem hb (4 * i + 1)
    have b2 := getD_lt_256 c.mem hb (4 * i + 2)
    have b3 := getD_lt_256 c.mem hb (4 * i + 3)
    rw [getElem?_eq_some_getD c.mem _ (by omega), and_0xFF, Nat.shiftRight_eq_div_pow]
    have : k = 0 ∨ k = 1 ∨ k = 2 ∨ k = 3 := by omega
    rcases this with rfl | rfl | rfl | rfl
    · simp only [Nat.add_zero]; congr 1; omega
    · congr 1; omega
    · congr 1; omega
    · congr 1; omega
  · intro j hj1 hj2
    rw [hframe j (Or.inr (by omega))]
    exact List.getElem?_replicate_of_lt hj2

/-- Instance of `program_loading` on the sample program `prog2`. -/
theorem program_loading_witness :
    4 * prog2.length ≤ 4096 ∧ (∀ w ∈ prog2, w < 2 ^ 32) ∧
    ∃ c, load_words CPU.new 0 prog2 = .ok c ∧
      (∀ i, i < prog2.length → fetch_word_be c (4 * i) = .ok (prog2.getD i 0)) ∧
      (∀ i k, i < prog2.length → k < 4 →
        c.mem[4 * i + k]? = some ((prog2.getD i 0 >>> (24 - 8 * k)) &&& 0xFF)) ∧
      (∀ j, 4 * prog2.length ≤ j → j < 4096 → c.mem[j]? = some 0) :=
  ⟨by decide, by decide, program_loading prog2 (by decide) (by decide)⟩

/-! ## Accessor guards at wrapped addresses -/

theorem wrByte_of_ge (m : List Nat) (i v : Nat) (h : m.length ≤ i) :
    wrByte m i v = .error .outOfBounds := by
  simp [wrByte, Nat.not_lt.mpr h]

theorem store_word_be_wrapped (c : CPU) (a w : Nat) (hlen : c.mem.length = MEMORY_SIZE)
    (h1 : 2 ^ 32 - 3 ≤ a) (h2 : a < 2 ^ 32) : store_word_be c a w = .error .outOfBounds := by
  have h4 : MEMORY_SIZE = 4096 := rfl
  unfold store_word_be
  have e3 : u32 (a + 3) = a + 3 - 2 ^ 32 := by unfold u32; omega
  have e0 : u32 (a + 0) = a := u32_of_lt h2
  rw [e3, e0, if_neg (by omega), wrByte_of_ge _ _ _ (by omega)]
  rfl

theorem write_word_le_wrapped (c : CPU) (a w : Nat) (hlen : c.mem.length = MEMORY_SIZE)
    (h1 : 2 ^ 32 - 3 ≤ a) (h2 : a < 2 ^ 32) : write_word_le c a w = .error .outOfBounds := by
  have h4 : MEMORY_SIZE = 4096 := rfl
  unfold write_word_le
  have e3 : u32 (a + 3) = a + 3 - 2 ^ 32 := by unfold u32; omega
  have e0 : u32 (a + 0) = a := u32_of_lt h2
  rw [e3, e0, if_neg (by omega), wrByte_of_ge _ _ _ (by omega)]
  rfl

/-- Claim C13, at the failing input.  For `addr = 0xFFFFFFFD` the window `addr..addr+3` is
not inside the 4096-byte memory (`addr + 3 >= 4096`), yet none of the four accessors takes
its out-of-range branch (`exit(1)`): `addr + 3` wraps to 0 in `uint32_t`, the guard is
passed, and the first byte access indexes `mem` at `0xFFFFFFFD`. -/
theorem accessor_guards_wrap :
    0xFFFFFFFD + 3 ≥ 4096 ∧ ¬ (u32 (0xFFFFFFFD + 3) ≥ CPU.new.mem.length) ∧
    store_word_be CPU.new 0xFFFFFFFD 0x01020304 = .error .outOfBounds ∧
    fetch_word_be CPU.new 0xFFFFFFFD = .error .outOfBounds ∧
    read_word_le CPU.new 0xFFFFFFFD = .error .outOfBounds ∧
    write_word_le CPU.new 0xFFFFFFFD 0x01020304 = .error .outOfBounds := by
  have hl := CPU.new_WF.mem_size
  refine ⟨by norm_num, ?_, store_word_be_wrapped _ _ _ hl (by norm_num) (by norm_num),
    fetch_word_be_wrapped _ _ hl (by norm_num) (by norm_num),
    read_word_le_wrapped _ _ hl (by norm_num) (by norm_num),
    write_word_le_wrapped _ _ _ hl (by norm_num) (by norm_num)⟩
  rw [hl]
  decide

/-! ## Continuing steps, inverted -/

theorem write_word_le_fields (c c1 : CPU) (a w : Nat) (h : write_word_le c a w = .ok c1) :
    c1.regs = c.regs ∧ c1.PC = c.PC ∧ c1.cycle = c.cycle := by
  unfold write_word_le at h
  simp only [bind, Except.bind, pure, Except.pure] at h
  repeat' split at h
  all_goals cases h
  all_goals exact ⟨rfl, rfl, rfl⟩

/-- Every `true` return of `step` went through fetch, execute, memory and write-back. -/
theorem step_continue_inv (s s1 : CPU) (h : step s = .ok (true, s1)) :
    ¬ (u32 (s.PC + 3) ≥ s.mem.length) ∧ ∃ IR l, fetch_word_be s s.PC = .ok IR ∧
      execute s.regs s.mem.length (u32 (s.PC + 4)) IR = some l ∧
      s1.PC = l.PC ∧ s1.cycle = (s.cycle + 1) % 2 ^ 64 ∧ s1.regs 0 = 0 := by
  unfold step at h
  by_cases hg : u32 (s.PC + 3) ≥ s.mem.length
  · rw [if_pos hg] at h
    cases h
  · rw [if_neg hg] at h
    refine ⟨hg, ?_⟩
    cases hf : fetch_word_be s s.PC with
    | error e => rw [hf] at h; cases h
    | ok IR =>
      rw [hf] at h
      simp only [bind, Except.bind, pure, Except.pure] at h
      cases hx : execute s.regs s.mem.length (u32 (s.PC + 4)) IR with
      | none =>
        rw [hx] at h
        cases h
      | some l =>
        rw [hx] at h
        refine ⟨IR, l, rfl, hx, ?_⟩
        simp only [] at h
        by_cases hw : l.memWrite = true
        · rw [if_pos hw] at h
          cases hww : write_word_le
              { mem := s.mem, regs := s.regs, PC := l.PC, cycle := (s.cycle + 1) % 2 ^ 64 }
              l.memAddr l.memWriteVal with
          | error e => rw [hww] at h; cases h
          | ok v =>
            rw [hww] at h
            obtain ⟨_, hp, hc⟩ := write_word_le_fields _ _ _ _ hww
            simp only [] at h
            split at h
            · split at h
              · cases h
              · injection h with h
                injection h with _ h
                subst h
                refine ⟨hp, hc, ?_⟩
                simp [writeBack]
            · injection h with h
              injection h with _ h
              subst h
              refine ⟨hp, hc, ?_⟩
              simp [writeBack]
        · rw [if_neg hw] at h
          split at h
          · split at h
            · cases h
            · injection h with h
              injection h with _ h
              subst h
              refine ⟨rfl, rfl, ?_⟩
              simp [writeBack]
          · injection h with h
            injection h with _ h
            subst h
            refine ⟨rfl, rfl, ?_⟩
            simp [writeBack]

theorem execute_PC (regs : Nat → Nat) (n pc IR : Nat) (l : Sched)
    (h : execute regs n pc IR = some l) :
    l.PC = pc ∨ l.PC = u32 (pc + u32 (toUInt32 (signext16 (imm16 IR)) <<< 2)) := by
  unfold execute at h
  simp only [Sched.idle] at h
  repeat' split at h
  all_goals cases h
  all_goals first
    | exact Or.inl rfl
    | exact Or.inr rfl

/-! ## The zero register -/

/-- After any returning step from a state with register 0 equal to 0, register 0 is 0. -/
theorem step_regs_zero (s s1 : CPU) (b : Bool) (h0 : s.regs 0 = 0)
    (h : step s = .ok (b, s1)) : s1.regs 0 = 0 := by
  cases b with
  | false =>
    rcases step_halt_inv s s1 h with ⟨_, hs⟩ | ⟨_, _, _, _, hs⟩
    · rw [hs]; exact h0
    · rw [hs]; exact h0
  | true =>
    obtain ⟨_, _, _, _, _, _, _, hz⟩ := step_continue_inv s s1 h
    exact hz

/-- Claim C12, counterexample to the claim as stated.  From a state with register 0 equal to
0, the fetched word `0x8D000000` is an `LW` whose destination index `rt` is 0, yet `step`
returns Halt, not Continue: the effective address 5000 fails the address check. -/
theorem lw_dest_zero_can_halt :
    (CPU.sample 0x8D000000 5000 0).WF ∧ (CPU.sample 0x8D000000 5000 0).regs 0 = 0 ∧
    fetch_word_be (CPU.sample 0x8D000000 5000 0) (CPU.sample 0x8D000000 5000 0).PC
      = .ok 0x8D000000 ∧
    opcode 0x8D000000 = 0x23 ∧ rt 0x8D000000 = 0 ∧
    step (CPU.sample 0x8D000000 5000 0) = .ok (false, (CPU.sample 0x8D000000 5000 0).advance 4) ∧
    ¬ ∃ s1, step (CPU.sample 0x8D000000 5000 0) = .ok (true, s1) := by
  have hwf := CPU.sample_WF 0x8D000000 5000 0 (by norm_num) (by norm_num)
  have hf := CPU.sample_fetch 0x8D000000 5000 0 (by norm_num)
  have hx : execute (CPU.sample 0x8D000000 5000 0).regs MEMORY_SIZE
      ((CPU.sample 0x8D000000 5000 0).PC + 4) 0x8D000000 = none := by
    rw [execute_lw _ _ _ _ (by decide)]
    exact if_pos (by decide)
  have hs := step_of_execute_none _ _ hwf.mem_size (by decide) hf hx
  refine ⟨hwf, rfl, hf, by decide, by decide, hs, ?_⟩
  rintro ⟨s1, h1⟩
  rw [hs] at h1
  cases h1

/-- Claim C12, as amended.  Register 0 equals 0 in the freshly constructed machine and after
every returning step (Continue or Halt) from a state in which it equals 0, whatever
instruction is fetched; in particular an ADD, SUB or ADDI whose destination index is 0, and
an `LW` whose destination index is 0 and whose effective address `a` satisfies
`a + 3 < 4096`, is accepted (`step` returns Continue) and leaves register 0 reading 0;
whereas a write-back of a value `v` to an index `i != 0` makes register `i` read exactly
`v`. -/
theorem zero_register_hardwired (s : CPU) (hwf : s.WF) (h0 : s.regs 0 = 0) :
    CPU.new.regs 0 = 0 ∧
    (∀ b s1, step s = .ok (b, s1) → s1.regs 0 = 0) ∧
    (∀ IR, fetch_word_be s s.PC = .ok IR →
      ((opcode IR = 0 ∧ (funct IR = 0x20 ∨ funct IR = 0x22) ∧ rd IR = 0) ∨
       (opcode IR = 0x08 ∧ rt IR = 0) ∨
       (opcode IR = 0x23 ∧ rt IR = 0 ∧ ∃ a : Nat,
          ((a : Nat) : Int) = ((s.regs (rs IR) : Int) + signext16 (imm16 IR)) % 2 ^ 32 ∧
          a + 3 < 4096)) →
      ∃ s1, step s = .ok (true, s1) ∧ s1.regs 0 = 0) ∧
    (∀ (regs : Nat → Nat) (i v : Nat), i ≠ 0 → writeBack regs true i v i = v) := by
  refine ⟨rfl, fun b s1 h => step_regs_zero s s1 b h0 h, ?_,
    fun regs i v hi => writeBack_same regs i v hi⟩
  intro IR hf hcase
  have hpc := fetch_ok_bound s hwf IR hf
  rcases hcase with ⟨hop, hfn | hfn, _⟩ | ⟨hop, _⟩ | ⟨hop, _, a, ha, hin⟩
  · have hs := step_add s IR hwf.mem_size hpc hf hop hfn
    exact ⟨_, hs, step_regs_zero _ _ _ h0 hs⟩
  · have hs := step_of_execute_reg s IR _ hwf.mem_size hpc hf
      (execute_sub s.regs _ _ IR hop hfn) rfl rfl
    exact ⟨_, hs, step_regs_zero _ _ _ h0 hs⟩
  · have hs := step_addi s IR hwf.mem_size hpc hf hop
    exact ⟨_, hs, step_regs_zero _ _ _ h0 hs⟩
  · have hea := effAddr_of_spec s.regs IR a ha
    have hs := step_lw s IR hwf.mem_size hwf.mem_byte hpc hf hop (by rw [hea]; exact hin)
    exact ⟨_, hs, step_regs_zero _ _ _ h0 hs⟩

/-- Instance of `zero_register_hardwired`: `ADDI $0,$8,-1` on a concrete machine is accepted
and leaves register 0 reading 0. -/
theorem zero_register_hardwired_witness :
    (CPU.sample 0x2100FFFF 5 0).WF ∧ (CPU.sample 0x2100FFFF 5 0).regs 0 = 0 ∧
    fetch_word_be (CPU.sample 0x2100FFFF 5 0) (CPU.sample 0x2100FFFF 5 0).PC = .ok 0x2100FFFF ∧
    opcode 0x2100FFFF = 0x08 ∧ rt 0x2100FFFF = 0 ∧
    ∃ s1, step (CPU.sample 0x2100FFFF 5 0) = .ok (true, s1) ∧ s1.regs 0 = 0 := by
  have hwf := CPU.sample_WF 0x2100FFFF 5 0 (by norm_num) (by norm_num)
  have hf := CPU.sample_fetch 0x2100FFFF 5 0 (by norm_num)
  obtain ⟨_, _, hacc, _⟩ := zero_register_hardwired (CPU.sample 0x2100FFFF 5 0) hwf rfl
  exact ⟨hwf, rfl, hf, by decide, by decide,
    hacc 0x2100FFFF hf (Or.inr (Or.inl ⟨by decide, by decide⟩))⟩

/-! ## PC alignment and the cycle counter -/

/-- Claim C16. PC alignment invariant: PC is a multiple of 4 in the freshly constructed
machine (PC = 0), and for every machine state whose PC is a multiple of 4, the PC after a
returning `step` is again a multiple of 4, for every fetched instruction word (including a
taken BEQ with any immediate) and either outcome (Continue or Halt). -/
theorem pc_alignment (s s1 : CPU) (b : Bool) (hal : s.PC % 4 = 0)
    (hs : step s = .ok (b, s1)) : CPU.new.PC % 4 = 0 ∧ s1.PC % 4 = 0 := by
  refine ⟨rfl, ?_⟩
  cases b with
  | false =>
    rcases step_halt_inv s s1 hs with ⟨_, h⟩ | ⟨_, _, _, _, h⟩
    · rw [h]; exact hal
    · rw [h]
      simp only [CPU.advance, u32]
      omega
  | true =>
    obtain ⟨_, IR, l, _, hx, hp, _, _⟩ := step_continue_inv s s1 hs
    rw [hp]
    rcases execute_PC _ _ _ _ _ hx with h | h
    · rw [h]
      simp only [u32]
      omega
    · rw [h]
      simp only [u32, Nat.shiftLeft_eq]
      omega

/-- Instance of `pc_alignment`: a taken backward `BEQ $8,$9,-1` on a concrete machine. -/
theorem pc_alignment_witness :
    (CPU.sample 0x1109FFFF 3 3).PC % 4 = 0 ∧
    ∃ s1, step (CPU.sample 0x1109FFFF 3 3) = .ok (true, s1) ∧ s1.PC % 4 = 0 := by
  have hwf := CPU.sample_WF 0x1109FFFF 3 3 (by norm_num) (by norm_num)
  have hf := CPU.sample_fetch 0x1109FFFF 3 3 (by norm_num)
  have hs := step_beq_taken (CPU.sample 0x1109FFFF 3 3) 0x1109FFFF hwf.mem_size (by decide) hf
    (by decide) (by decide)
  exact ⟨rfl, _, hs, (pc_alignment (CPU.sample 0x1109FFFF 3 3) _ true rfl hs).2⟩

/-- Claim C20. Cycle counter and PC on halting steps: a step that halts at the fetch guard
leaves both the cycle counter and PC unchanged, whereas every returning step that passes
the fetch guard increments the cycle counter (a `uint64_t`) by exactly 1, including a step
that then halts on an `LW`/`SW` effective-address fault, after which PC equals the old
PC + 4. -/
theorem cycle_and_pc_on_halt (s s1 : CPU) (b : Bool) (hwf : s.WF)
    (hs : step s = .ok (b, s1)) :
    (u32 (s.PC + 3) ≥ s.mem.length → b = false ∧ s1.cycle = s.cycle ∧ s1.PC = s.PC) ∧
    (¬ (u32 (s.PC + 3) ≥ s.mem.length) →
      s1.cycle = (s.cycle + 1) % 2 ^ 64 ∧
      (s.cycle + 1 < 2 ^ 64 → s1.cycle = s.cycle + 1) ∧
      (b = false → s1.PC = s.PC + 4 ∧
        ∃ IR, fetch_word_be s s.PC = .ok IR ∧ (opcode IR = 0x23 ∨ opcode IR = 0x2B) ∧
          u32 (effAddr s.regs IR + 3) ≥ s.mem.length)) := by
  have h4 : MEMORY_SIZE = 4096 := rfl
  have hcyc : ∀ c : Nat, c = (s.cycle + 1) % 2 ^ 64 → s.cycle + 1 < 2 ^ 64 →
      c = s.cycle + 1 := by
    intro c hc hlt
    rw [hc, Nat.mod_eq_of_lt hlt]
  cases b with
  | false =>
    rcases step_halt_inv s s1 hs with ⟨hg, h⟩ | ⟨hg, IR, hf, hx, h⟩
    · refine ⟨fun _ => ⟨rfl, by rw [h], by rw [h]⟩, fun hng => absurd hg hng⟩
    · refine ⟨fun hg2 => absurd hg2 hg, fun _ => ?_⟩
      have hpc := fetch_ok_bound s hwf IR hf
      have hcy : s1.cycle = (s.cycle + 1) % 2 ^ 64 := by rw [h]; rfl
      refine ⟨hcy, hcyc _ hcy, fun _ => ⟨?_, IR, hf, ?_⟩⟩
      · rw [h]
        simp only [CPU.advance]
        exact u32_of_lt (by omega)
      · by_cases h23 : opcode IR = 0x23
        · rw [execute_lw _ _ _ _ h23] at hx
          by_cases hc : u32 (effAddr s.regs IR + 3) ≥ s.mem.length
          · exact ⟨Or.inl h23, hc⟩
          · rw [if_neg hc] at hx; cases hx
        · by_cases h2b : opcode IR = 0x2B
          · rw [execute_sw _ _ _ _ h2b] at hx
            by_cases hc : u32 (effAddr s.regs IR + 3) ≥ s.mem.length
            · exact ⟨Or.inr h2b, hc⟩
            · rw [if_neg hc] at hx; cases hx
          · exfalso
            unfold execute at hx
            simp only [h23, h2b, if_false] at hx
            repeat' split at hx
            all_goals cases hx
  | true =>
    obtain ⟨hg, IR, l, _, _, _, hc, _⟩ := step_continue_inv s s1 hs
    exact ⟨fun hg2 => absurd hg2 hg,
      fun _ => ⟨hc, hcyc _ hc, fun hb => absurd hb (by decide)⟩⟩

/-- Instance of `cycle_and_pc_on_halt`: an `LW` with an out-of-range effective address on a
concrete machine halts with the cycle counted and PC advanced by 4. -/
theorem cycle_and_pc_on_halt_witness :
    (CPU.sample 0x8D090000 5000 7).WF ∧
    step (CPU.sample 0x8D090000 5000 7)
      = .ok (false, (CPU.sample 0x8D090000 5000 7).advance 4) ∧
    ((CPU.sample 0x8D090000 5000 7).advance 4).cycle = (CPU.sample 0x8D090000 5000 7).cycle + 1 ∧
    ((CPU.sample 0x8D090000 5000 7).advance 4).PC = (CPU.sample 0x8D090000 5000 7).PC + 4 := by
  have hwf := CPU.sample_WF 0x8D090000 5000 7 (by norm_num) (by norm_num)
  have hf := CPU.sample_fetch 0x8D090000 5000 7 (by norm_num)
  have hx : execute (CPU.sample 0x8D090000 5000 7).regs MEMORY_SIZE
      ((CPU.sample 0x8D090000 5000 7).PC + 4) 0x8D090000 = none := by
    rw [execute_lw _ _ _ _ (by decide)]
    exact if_pos (by decide)
  have hs := step_of_execute_none _ _ hwf.mem_size (by decide) hf hx
  have h := (cycle_and_pc_on_halt _ _ false hwf hs).2 (by rw [hwf.mem_size]; decide)
  exact ⟨hwf, hs, h.2.1 (by decide), (h.2.2 rfl).1⟩

end MiniCPU
